import Mathlib

/-!
# Verification of the BFS-based shortest-path algorithm

A shallow embedding of `src/bfs_shortest_path.py` (repository
`volfpeter/bfs-shortest-path`) together with proofs and refutations of the
specification's claims about it.

Modelling choices:

* Edge weights, stored distances and all arithmetic are exact rationals `ℚ`
  (the idealized real arithmetic that the Python float arithmetic
  approximates; every concrete input below has small integer weights, where
  float and rational arithmetic agree exactly).
* The Python `dict` `distances` becomes an insertion-ordered association list
  `List (Nat × ℚ)`: `dlookup` is `dict.get`, `dupdate` overwrites an existing
  key in place and appends a fresh key at the end, exactly like a Python dict.
* The Python `set`s (`check`, `check_next`, `fix`, `new_processed`,
  `processed`) become duplicate-free lists with membership-tested insertion
  (`sinsert`).  `set.pop()` removes an *unspecified* element; this is made
  explicit by a `Popper` parameter choosing (by index) which element each pop
  removes, so that claims about "every pop order" quantify over the popper.
* The `while` loop of `_fix_distances` and the driver `while` loop of
  `shortest_path` need not terminate (negative cycles), so both take fuel and
  return `none` when the fuel is exhausted before the loop's guard turns
  false.  The frontier-draining loop of `_visit_neighbors` always terminates
  (the frontier only shrinks while it drains), so it is run with fuel equal to
  the frontier's length, which always suffices.
-/

namespace BFS

/-- A directed edge-weighted graph: node ids are `0 .. n-1` and each edge is
a `(tail, head, weight)` triple, as constructed by igraph with a `weight`
edge attribute. -/
structure Graph where
  n : Nat
  edges : List (Nat × Nat × ℚ)
deriving Repr, DecidableEq

/-- `graph.neighbors(u, "out")`: the heads of the edges whose tail is `u`,
in edge-insertion order. -/
def neighborsOut (g : Graph) (u : Nat) : List Nat :=
  (g.edges.filter (fun e => e.1 == u)).map (fun e => e.2.1)

/-- `edges[graph.get_eid(u, v)]["weight"]`: the weight of the (first) edge
from `u` to `v`; `0` if there is none (the algorithm only queries weights of
existing edges). -/
def edgeWeight (g : Graph) (u v : Nat) : ℚ :=
  ((g.edges.find? (fun e => e.1 == u && e.2.1 == v)).map (fun e => e.2.2)).getD 0

/-- `distances.get(v)`: association-list lookup. -/
def dlookup (v : Nat) (d : List (Nat × ℚ)) : Option ℚ :=
  (d.find? (fun e => e.1 == v)).map (fun e => e.2)

/-- `distances[v] = q`: overwrite the entry of an existing key in place,
append a fresh key at the end (Python dict update semantics). -/
def dupdate (v : Nat) (q : ℚ) : List (Nat × ℚ) → List (Nat × ℚ)
  | [] => [(v, q)]
  | e :: rest => if e.1 = v then (v, q) :: rest else e :: dupdate v q rest

/-- `s.add(x)` for a set modelled as a duplicate-free list. -/
def sinsert (x : Nat) (l : List Nat) : List Nat :=
  if x ∈ l then l else x :: l

/-- The shared mutable state of the nested closures in `shortest_path`. -/
structure St where
  check : List Nat
  check_next : List Nat
  distances : List (Nat × ℚ)
  fix : List Nat
  new_processed : List Nat
  processed : List Nat
deriving Repr, DecidableEq

/-- A pop-order oracle: given the current contents of a set, the index of the
element that `set.pop()` removes (clamped into range). -/
abbrev Popper := List Nat → Nat

/-- `s.pop()`: remove and return the element chosen by the popper. -/
def pop (p : Popper) (l : List Nat) : Nat × List Nat :=
  let i := Nat.min (p l) (l.length - 1)
  (l.getD i 0, l.eraseIdx i)

/-- Pop the element at index 0. -/
def popHead : Popper := fun _ => 0

/-- Pop the element at the last index. -/
def popLast : Popper := fun l => l.length - 1

/-- One iteration of the `for neighbor_index in graph.neighbors(node_index,
"out")` body of `_visit_neighbors`: relax the edge `(u, v)` with the base
distance `b` read when `u` was popped. -/
def relaxVisit (g : Graph) (u : Nat) (b : ℚ) (st : St) (v : Nat) : St :=
  match dlookup v st.distances with
  | none =>
      { st with distances := dupdate v (b + edgeWeight g u v) st.distances,
                check_next := sinsert v st.check_next }
  | some dv =>
      if b + edgeWeight g u v < dv then
        { st with distances := dupdate v (b + edgeWeight g u v) st.distances,
                  fix := if v ∈ st.processed then sinsert v st.fix else st.fix }
      else st

/-- One iteration of the `while len(check) > 0` body of `_visit_neighbors`:
pop a node, record it as newly processed, and relax all its outgoing edges.
(The lookup of the popped node's distance cannot fail on states the algorithm
reaches; on a malformed state the node is popped and skipped.) -/
def visitStep (p : Popper) (g : Graph) (st : St) : St :=
  match dlookup (pop p st.check).1 st.distances with
  | none => { st with check := (pop p st.check).2 }
  | some b =>
      (neighborsOut g (pop p st.check).1).foldl (relaxVisit g (pop p st.check).1 b)
        { st with check := (pop p st.check).2,
                  new_processed := sinsert (pop p st.check).1 st.new_processed }

/-- The `while len(check) > 0` loop of `_visit_neighbors`, fueled. -/
def visitLoop (p : Popper) (g : Graph) : Nat → St → St
  | 0, st => st
  | f + 1, st => if st.check = [] then st else visitLoop p g f (visitStep p g st)

/-- `_visit_neighbors()`: drain the frontier, then merge the newly settled
buffer into the settled set and clear it. -/
def visitNeighbors (p : Popper) (g : Graph) (st : St) : St :=
  let st' := visitLoop p g st.check.length st
  { st' with
      processed := st'.new_processed.foldl (fun acc x => sinsert x acc) st'.processed,
      new_processed := [] }

/-- One iteration of the `for neighbor_index in ...` body of
`_fix_distances`: neighbors without a distance are skipped. -/
def relaxFix (g : Graph) (u : Nat) (b : ℚ) (st : St) (v : Nat) : St :=
  match dlookup v st.distances with
  | none => st
  | some dv =>
      if b + edgeWeight g u v < dv then
        { st with distances := dupdate v (b + edgeWeight g u v) st.distances,
                  fix := if v ∈ st.processed then sinsert v st.fix else st.fix }
      else st

/-- One iteration of the `while len(fix) > 0` body of `_fix_distances`. -/
def fixStep (p : Popper) (g : Graph) (st : St) : St :=
  match dlookup (pop p st.fix).1 st.distances with
  | none => { st with fix := (pop p st.fix).2 }
  | some b =>
      (neighborsOut g (pop p st.fix).1).foldl (relaxFix g (pop p st.fix).1 b)
        { st with fix := (pop p st.fix).2 }

/-- `_fix_distances()`: drain the correction queue to a fixed point; `none`
when the fuel runs out before the queue empties (the loop does not
terminate within the given step budget). -/
def fixLoop (p : Popper) (g : Graph) : Nat → St → Option St
  | 0, st => if st.fix = [] then some st else none
  | f + 1, st => if st.fix = [] then some st else fixLoop p g f (fixStep p g st)

/-- `check, check_next = check_next, check`. -/
def swapSt (st : St) : St :=
  { st with check := st.check_next, check_next := st.check }

/-- The local state of `shortest_path` just before the first
`_visit_neighbors()` call: `distances = {source: 0}`, `check = {source}`,
everything else empty. -/
def initSt (s : Nat) : St :=
  { check := [s], check_next := [], distances := [(s, 0)],
    fix := [], new_processed := [], processed := [] }

/-- The `while len(fix) > 0 or len(check) > 0` driver loop of
`shortest_path`, fueled: each round is a BFS step, a frontier swap and a
distance-fixing step. -/
def loop (p : Popper) (g : Graph) : Nat → St → Option St
  | 0, st => if st.fix = [] ∧ st.check = [] then some st else none
  | f + 1, st =>
      if st.fix = [] ∧ st.check = [] then some st
      else
        match fixLoop p g f (swapSt (visitNeighbors p g st)) with
        | none => none
        | some st' => loop p g f st'

/-- `shortest_path(graph, source_index)` run to its final internal state:
the initial BFS step and swap, then the driver loop. -/
def shortestPathState (p : Popper) (g : Graph) (s : Nat) (fuel : Nat) : Option St :=
  loop p g fuel (swapSt (visitNeighbors p g (initSt s)))

/-- `shortest_path(graph, source_index)`: the returned `distances` dict;
`none` when the computation does not finish within `fuel` loop steps. -/
def shortest_path (p : Popper) (g : Graph) (s : Nat) (fuel : Nat) :
    Option (List (Nat × ℚ)) :=
  (shortestPathState p g s fuel).map St.distances

/-! ## The reference Bellman-Ford computation

The specification's reference oracle: repeatedly relax every edge of the
graph, `edges.length + 1` rounds, starting from `{source: 0}`.  This is the
classic Bellman-Ford sweep; on a graph with no negative cycle reachable from
the source it computes the true shortest-path distances. -/

/-- Relax a single edge `(u, v, w)` of the graph in the reference sweep. -/
def bfRelaxEdge (d : List (Nat × ℚ)) (e : Nat × Nat × ℚ) : List (Nat × ℚ) :=
  match dlookup e.1 d with
  | none => d
  | some du =>
      match dlookup e.2.1 d with
      | none => dupdate e.2.1 (du + e.2.2) d
      | some dv => if du + e.2.2 < dv then dupdate e.2.1 (du + e.2.2) d else d

/-- One Bellman-Ford round: relax every edge once. -/
def bfRound (g : Graph) (d : List (Nat × ℚ)) : List (Nat × ℚ) :=
  g.edges.foldl bfRelaxEdge d

/-- `k` Bellman-Ford rounds from `{source: 0}`. -/
def bfIter (g : Graph) (s : Nat) : Nat → List (Nat × ℚ)
  | 0 => [(s, 0)]
  | k + 1 => bfRound g (bfIter g s k)

/-- The reference shortest-path distance of `v` from `s`: the Bellman-Ford
value after enough rounds for every minimal path to have been swept. -/
def trueDist (g : Graph) (s v : Nat) : Option ℚ :=
  dlookup v (bfIter g s (g.edges.length + 1))

/-! ## Graph-theoretic vocabulary -/

/-- `v` is an out-neighbor of `u`. -/
def Adj (g : Graph) (u v : Nat) : Prop := v ∈ neighborsOut g u

instance (g : Graph) (u v : Nat) : Decidable (Adj g u v) := by
  unfold Adj; infer_instance

/-- `v` is reachable from `s`: some nonempty chain of out-edges starts at `s`
and ends at `v` (the one-element chain makes every node reachable from
itself). -/
def Reach (g : Graph) (s v : Nat) : Prop :=
  ∃ l : List Nat, l ≠ [] ∧ List.Chain' (Adj g) l ∧ l.head? = some s ∧ l.getLast? = some v

/-- The weight of a walk written as its list of visited nodes. -/
def pathW (g : Graph) : List Nat → ℚ
  | u :: v :: rest => edgeWeight g u v + pathW g (v :: rest)
  | _ => 0

/-- `l` is a simple path from `s` to `v`: nonempty, consecutive nodes
adjacent, no node repeated. -/
def SPath (g : Graph) (s v : Nat) (l : List Nat) : Prop :=
  l ≠ [] ∧ List.Chain' (Adj g) l ∧ l.head? = some s ∧ l.getLast? = some v ∧ l.Nodup

/-- Every nonempty prefix of `l` ends at a node whose current stored distance
is at most the weight of that prefix (stored distances under-approximate the
walk that justifies them). -/
def PreB (g : Graph) (d : List (Nat × ℚ)) (l : List Nat) : Prop :=
  ∀ pre x, pre ≠ [] → pre <+: l → pre.getLast? = some x →
    ∃ qx, dlookup x d = some qx ∧ qx ≤ pathW g pre

/-- The central distance-table invariant: every stored distance is the exact
weight of a simple path from the source whose intermediate stored distances
are all below the corresponding prefix weights. -/
def GoodDist (g : Graph) (s : Nat) (d : List (Nat × ℚ)) : Prop :=
  ∀ v q, dlookup v d = some q →
    ∃ l, SPath g s v l ∧ pathW g l = q ∧ PreB g d l

/-- `d'` evolves from `d`: every present entry stays present and never
increases. -/
def DistEvol (d d' : List (Nat × ℚ)) : Prop :=
  ∀ v q, dlookup v d = some q → ∃ q', dlookup v d' = some q' ∧ q' ≤ q

/-- No negative cycle consists of nodes reachable from `s`: every simple
cycle (a duplicate-free chain closed by an edge from its last node back to
its first) whose nodes are all reachable from `s` has nonnegative total
weight. -/
def NoNegCycle (g : Graph) (s : Nat) : Prop :=
  ∀ c u v, c ≠ [] → List.Chain' (Adj g) c → c.Nodup →
    (∀ x ∈ c, Reach g s x) →
    c.getLast? = some u → c.head? = some v → Adj g u v →
    0 ≤ pathW g c + edgeWeight g u v

/-- The consecutive pairs of a walk written as its list of visited nodes. -/
def steps : List Nat → List (Nat × Nat)
  | u :: v :: rest => (u, v) :: steps (v :: rest)
  | _ => []

/-- All node ids that can ever carry a stored distance: the source and the
endpoints of every edge. -/
def verts (g : Graph) (s : Nat) : List Nat :=
  s :: g.edges.foldr (fun e acc => e.1 :: e.2.1 :: acc) []

/-- Every duplicate-free list over `verts g s`, in every order: a finite
superset of the simple paths out of the source, used to bound the values a
stored distance can take. -/
def cand (g : Graph) (s : Nat) : List (List Nat) :=
  (verts g s).dedup.sublists.bind List.permutations

/-- The finitely many values a stored distance can take during a run. -/
def pvals (g : Graph) (s : Nat) : Finset ℚ := ((cand g s).map (pathW g)).toFinset

/-- How many possible stored values lie strictly below `q`. -/
def rank (g : Graph) (s : Nat) (q : ℚ) : Nat :=
  ((pvals g s).filter (fun x => x < q)).card

/-- The termination potential of a distance table: the total rank of its
stored values.  Every strict improvement of a stored value decreases it. -/
def distPhi (g : Graph) (s : Nat) (d : List (Nat × ℚ)) : Nat :=
  (d.map (fun e => rank g s e.2)).sum

/-- A fuel budget large enough for any correction pass of a run on `g` from
`s` (a crude bound on the maximal potential). -/
def termK (g : Graph) (s : Nat) : Nat :=
  ((1 + g.edges.length) * (pvals g s).card) * (2 + g.edges.length) +
    (2 + g.edges.length) + 1

/-- The key `v` is present in the distance table. -/
def HasKey (d : List (Nat × ℚ)) (v : Nat) : Prop := (dlookup v d).isSome

instance (d : List (Nat × ℚ)) (v : Nat) : Decidable (HasKey d v) := by
  unfold HasKey; infer_instance

/-! ## Concrete graphs used by the claims -/

/-- Concrete scenario 1 of the specification: `0→1 (2)`, `1→2 (-5)`,
`0→2 (10)`, `2→3 (1)`. -/
def G3 : Graph := ⟨4, [(0, 1, 2), (1, 2, -5), (0, 2, 10), (2, 3, 1)]⟩

/-- A graph with nonnegative weights on which the result depends on the pop
order: `0→1 (5)`, `0→2 (1)`, `2→1 (1)`, `1→3 (1)`.  The true distance of
node `3` is `3` (via `0→2→1→3`). -/
def G9 : Graph := ⟨4, [(0, 1, 5), (0, 2, 1), (2, 1, 1), (1, 3, 1)]⟩

/-- Concrete scenario 3 of the specification: the negative two-node cycle
`0→1 (1)`, `1→0 (-2)`. -/
def G8 : Graph := ⟨2, [(0, 1, 1), (1, 0, -2)]⟩

/-- A single node carrying a negative self-loop: the smallest graph with a
negative cycle through the source. -/
def GSelf : Graph := ⟨1, [(0, 0, -1)]⟩

/-- A single isolated node. -/
def G1 : Graph := ⟨1, []⟩

/-- The correction-loop state of the `G8` run about to re-relax node `0`,
after the distances have been pushed down `k - 1` times. -/
def a8 (k : ℚ) : St :=
  ⟨[], [], [(0, -k), (1, 2 - k)], [0], [], [1, 0]⟩

/-- The correction-loop state of the `G8` run about to re-relax node `1`. -/
def b8 (k : ℚ) : St :=
  ⟨[], [], [(0, -k), (1, -k + 1)], [1], [], [1, 0]⟩

/-- The base distance `b` that a relaxation pass uses for node `u` is
justified: some simple path from the source to `u` weighs exactly `b` and
every node along it has a stored distance below the corresponding prefix
weight.  (When `u` was popped its stored distance was `b`; the table may
have dropped below `b` since, which only strengthens the prefix bounds.) -/
def BaseOK (g : Graph) (s : Nat) (d : List (Nat × ℚ)) (u : Nat) (b : ℚ) : Prop :=
  ∃ P, SPath g s u P ∧ pathW g P = b ∧ PreB g d P

/-- The structural well-formedness invariant of the algorithm's state:
every worklist node has a stored distance, correction-queue nodes are
settled, settled nodes have all their out-neighbors stored, every stored
node sits in one of the four node sets, every stored node is reachable from
the source, and the source is stored. -/
structure WF (g : Graph) (s : Nat) (st : St) : Prop where
  check_key : ∀ v ∈ st.check, HasKey st.distances v
  cnext_key : ∀ v ∈ st.check_next, HasKey st.distances v
  fix_key : ∀ v ∈ st.fix, HasKey st.distances v
  fix_proc : ∀ v ∈ st.fix, v ∈ st.processed
  proc_closed : ∀ u, u ∈ st.processed ∨ u ∈ st.new_processed →
    ∀ v, Adj g u v → HasKey st.distances v
  key_where : ∀ v, HasKey st.distances v →
    v ∈ st.processed ∨ v ∈ st.new_processed ∨ v ∈ st.check ∨ v ∈ st.check_next
  key_reach : ∀ v, HasKey st.distances v → Reach g s v
  src_key : HasKey st.distances s


/-! ## Fuel irrelevance

The fueled embedding returns the same final state for every sufficient step
budget, so the budget is an artifact of the embedding, not a source of
nondeterminism. -/

theorem fixLoop_mono (p : Popper) (g : Graph) :
    ∀ f f' st st', fixLoop p g f st = some st' → f ≤ f' →
      fixLoop p g f' st = some st' := by
  intro f
  induction f with
  | zero =>
      intro f' st st' h _
      simp only [fixLoop] at h
      split at h
      · rename_i hfix
        cases f' with
        | zero => simpa [fixLoop, hfix] using h
        | succ k => simpa [fixLoop, hfix] using h
      · exact absurd h (by simp)
  | succ k ih =>
      intro f' st st' h hle
      simp only [fixLoop] at h
      split at h
      · rename_i hfix
        cases f' with
        | zero => simpa [fixLoop, hfix] using h
        | succ m => simpa [fixLoop, hfix] using h
      · rename_i hfix
        cases f' with
        | zero => omega
        | succ m =>
            have hkm : k ≤ m := Nat.succ_le_succ_iff.mp hle
            simpa [fixLoop, hfix] using ih m _ st' h hkm

theorem loop_mono (p : Popper) (g : Graph) :
    ∀ f f' st st', loop p g f st = some st' → f ≤ f' →
      loop p g f' st = some st' := by
  intro f
  induction f with
  | zero =>
      intro f' st st' h _
      simp only [loop] at h
      split at h
      · rename_i hg
        cases f' with
        | zero => simpa [loop, hg] using h
        | succ k => simpa [loop, hg] using h
      · exact absurd h (by simp)
  | succ k ih =>
      intro f' st st' h hle
      simp only [loop] at h
      split at h
      · rename_i hg
        cases f' with
        | zero => simpa [loop, hg] using h
        | succ m => simpa [loop, hg] using h
      · rename_i hg
        cases f' with
        | zero => omega
        | succ m =>
            have hkm : k ≤ m := Nat.succ_le_succ_iff.mp hle
            rcases hfx : fixLoop p g k (swapSt (visitNeighbors p g st)) with _ | stm
            · rw [hfx] at h; exact absurd h (by simp)
            · rw [hfx] at h
              have hfx' := fixLoop_mono p g k m _ stm hfx hkm
              simpa [loop, hg, hfx'] using ih m stm st' h hkm

theorem shortest_path_mono (p : Popper) (g : Graph) (s : Nat) (f f' : Nat)
    (l : List (Nat × ℚ)) (h : shortest_path p g s f = some l) (hle : f ≤ f') :
    shortest_path p g s f' = some l := by
  unfold shortest_path shortestPathState at h ⊢
  rcases hst : loop p g f (swapSt (visitNeighbors p g (initSt s))) with _ | st
  · rw [hst] at h; exact absurd h (by simp)
  · rw [hst] at h
    rw [loop_mono p g f f' _ st hst hle]
    exact h

/-- A state whose correction queue and frontier are both empty exits the
driver loop immediately, whatever the fuel. -/
theorem loop_of_done (p : Popper) (g : Graph) (f : Nat) (st : St)
    (hfix : st.fix = []) (hchk : st.check = []) : loop p g f st = some st := by
  cases f <;> simp [loop, hfix, hchk]

/-! ## The nonterminating run on the negative two-node cycle

On `G8` (`0→1 (1)`, `1→0 (-2)`) the correction queue alternates forever
between `{0}` and `{1}`, pushing the two distances down by one per round:
the states `a8 k`/`b8 k` below are the two phases of that loop. -/

theorem fixStep_a8 (k : ℚ) : fixStep popHead G8 (a8 k) = b8 k := by
  show (neighborsOut G8 0).foldl (relaxFix G8 0 (-k)) _ = _
  have h1 : neighborsOut G8 0 = [1] := by with_unfolding_all rfl
  have h2 : edgeWeight G8 0 1 = 1 := by with_unfolding_all rfl
  have h3 : -k + 1 < 2 - k := by linarith
  simp [h1, relaxFix, dlookup, a8, b8, h2, dupdate, h3, List.find?, pop, popHead, sinsert]

theorem fixStep_b8 (k : ℚ) : fixStep popHead G8 (b8 k) = a8 (k + 1) := by
  show (neighborsOut G8 1).foldl (relaxFix G8 1 (-k + 1)) _ = _
  have h1 : neighborsOut G8 1 = [0] := by with_unfolding_all rfl
  have h2 : edgeWeight G8 1 0 = -2 := by with_unfolding_all rfl
  have h3 : -k + 1 + -2 < -k := by linarith
  have h4 : -k + 1 + -2 = -(k + 1) := by ring
  have h5 : (2 : ℚ) - (k + 1) = -k + 1 := by ring
  simp [h1, relaxFix, dlookup, a8, b8, h2, dupdate, h3, h4, h5, List.find?, pop, popHead, sinsert]

theorem fixLoop_g8_none :
    ∀ f, (∀ k, fixLoop popHead G8 f (a8 k) = none) ∧
         (∀ k, fixLoop popHead G8 f (b8 k) = none) := by
  intro f
  induction f with
  | zero => exact ⟨fun k => by simp [fixLoop, a8], fun k => by simp [fixLoop, b8]⟩
  | succ n ih =>
      refine ⟨fun k => ?_, fun k => ?_⟩
      · have : (a8 k).fix = [0] := rfl
        simp only [fixLoop, this]
        rw [if_neg (by simp), fixStep_a8]
        exact ih.2 k
      · have : (b8 k).fix = [1] := rfl
        simp only [fixLoop, this]
        rw [if_neg (by simp), fixStep_b8]
        exact ih.1 (k + 1)

/-! ## Claim theorems on concrete runs -/

/-- C1 (code-bug evaluation): on the all-nonnegative graph `G9`, with the pop
order that pops node `1` before node `2` in the second BFS layer (CPython's
pop order for these ids), `shortest_path` returns distance `6` for node `3`
while the reference Bellman-Ford distance is `3`: node `1` was relaxed with
the stale base `5` and its later improvement to `2` was never enqueued for
correction, because `1` was only in the newly-settled buffer and not yet in
the settled set when the improvement happened. -/
theorem c1_code_bug_eval :
    shortest_path popLast G9 0 10 = some [(0, 0), (1, 2), (2, 1), (3, 6)] ∧
    trueDist G9 0 3 = some 3 ∧
    shortest_path popLast G9 0 10 ≠ some [(0, 0), (1, 2), (2, 1), (3, 3)] := by
  with_unfolding_all decide

/-- C2 (counterexample): in the `G9` run, after node `1` has been popped and
relaxed (it sits in the newly-settled buffer with distance `5`), relaxing the
edge `(2, 1)` improves its distance to `2`, yet the correction queue stays
empty and `1` is in no frontier set — a node whose outgoing edges were
already relaxed improves without being enqueued for correction. -/
theorem c2_counterexample :
    1 ∈ (visitStep popLast G9 (swapSt (visitNeighbors popLast G9 (initSt 0)))).new_processed ∧
    dlookup 1 (visitStep popLast G9 (swapSt (visitNeighbors popLast G9 (initSt 0)))).distances
      = some 5 ∧
    dlookup 1 (visitStep popLast G9 (visitStep popLast G9
      (swapSt (visitNeighbors popLast G9 (initSt 0))))).distances = some 2 ∧
    (visitStep popLast G9 (visitStep popLast G9
      (swapSt (visitNeighbors popLast G9 (initSt 0))))).fix = [] ∧
    1 ∉ (visitStep popLast G9 (visitStep popLast G9
      (swapSt (visitNeighbors popLast G9 (initSt 0))))).check ∧
    1 ∉ (visitStep popLast G9 (visitStep popLast G9
      (swapSt (visitNeighbors popLast G9 (initSt 0))))).check_next := by
  with_unfolding_all decide

/-- C2 (amended): when relaxing `(u, v)` during Frontier Expansion improves
an already-present distance, the distance is updated to the improved value
and `v` is added to the correction queue exactly when `v` is in the
`processed` set, which excludes nodes settled earlier in the current
expansion pass: those are not enqueued even though their outgoing edges were
already relaxed. -/
theorem c2_amended (g : Graph) (u v : Nat) (b : ℚ) (st : St) (dv : ℚ)
    (hv : dlookup v st.distances = some dv)
    (himp : b + edgeWeight g u v < dv) :
    (relaxVisit g u b st v).distances = dupdate v (b + edgeWeight g u v) st.distances ∧
    (v ∈ st.processed → (relaxVisit g u b st v).fix = sinsert v st.fix) ∧
    (v ∉ st.processed → (relaxVisit g u b st v).fix = st.fix) := by
  unfold relaxVisit
  rw [hv]
  refine ⟨?_, fun hin => ?_, fun hout => ?_⟩ <;> simp [himp, *]

theorem c2_amended_witness :
    dlookup 1 [(1, (5 : ℚ))] = some 5 ∧
    (1 : ℚ) + edgeWeight G9 2 1 < 5 ∧
    (relaxVisit G9 2 1 ⟨[], [], [(1, 5)], [], [], []⟩ 1).distances
      = dupdate 1 (1 + edgeWeight G9 2 1) [(1, 5)] ∧
    (relaxVisit G9 2 1 ⟨[], [], [(1, 5)], [], [], []⟩ 1).fix = [] := by
  refine ⟨by with_unfolding_all rfl, by with_unfolding_all decide, ?_, ?_⟩
  · exact (c2_amended G9 2 1 1 ⟨[], [], [(1, 5)], [], [], []⟩ 5
      (by with_unfolding_all rfl) (by with_unfolding_all decide)).1
  · exact (c2_amended G9 2 1 1 ⟨[], [], [(1, 5)], [], [], []⟩ 5
      (by with_unfolding_all rfl) (by with_unfolding_all decide)).2.2 (by simp)

/-- C3 (counterexample): on the specification's concrete scenario 1, the pop
order that pops node `2` before node `1` in the second BFS layer makes
`shortest_path` return `11` for node `3` instead of the expected `-2`: the
expected mapping is not produced for *every* pop order. -/
theorem c3_counterexample :
    shortest_path popHead G3 0 10 = some [(0, 0), (1, 2), (2, -3), (3, 11)] ∧
    shortest_path popHead G3 0 10 ≠ some [(0, 0), (1, 2), (2, -3), (3, -2)] := by
  with_unfolding_all decide

/-- C3 (amended): on scenario 1 the expected mapping
`{0: 0, 1: 2, 2: -3, 3: -2}` is returned for pop orders that pop node `1`
before node `2` in the second BFS layer (CPython's pop order for these ids),
but not for every pop order. -/
theorem c3_amended :
    shortest_path popLast G3 0 10 = some [(0, 0), (1, 2), (2, -3), (3, -2)] := by
  with_unfolding_all rfl

/-- C4 (counterexample): two runs on the same graph and source that pop
nodes in different orders within a layer both terminate but return different
mappings, refuting order-independence. -/
theorem c4_counterexample :
    shortest_path popHead G3 0 10 = some [(0, 0), (1, 2), (2, -3), (3, 11)] ∧
    shortest_path popLast G3 0 10 = some [(0, 0), (1, 2), (2, -3), (3, -2)] ∧
    shortest_path popHead G3 0 10 ≠ shortest_path popLast G3 0 10 := by
  with_unfolding_all decide

/-- C4 (amended): for a fixed pop order the computation is a pure function
of the graph and source — in particular the returned mapping does not depend
on the step budget once it suffices — but different pop orders within a
layer can produce different final mappings. -/
theorem c4_amended (p : Popper) (g : Graph) (s f f' : Nat) (l : List (Nat × ℚ))
    (h : shortest_path p g s f = some l) (hle : f ≤ f') :
    shortest_path p g s f' = some l :=
  shortest_path_mono p g s f f' l h hle

theorem c4_amended_witness :
    shortest_path popLast G3 0 20 = some [(0, 0), (1, 2), (2, -3), (3, -2)] :=
  c4_amended popLast G3 0 10 20 [(0, 0), (1, 2), (2, -3), (3, -2)]
    (by with_unfolding_all rfl) (by omega)

/-- C5 (counterexample): on the graph with a single negative self-loop at
the source — a negative cycle reachable from the source, which the claim as
frozen does not exclude — the run terminates and returns a mapping whose
entry for the source is `-1`, not `0`. -/
theorem c5_counterexample :
    shortest_path popHead GSelf 0 10 = some [(0, -1)] ∧
    (shortest_path popHead GSelf 0 10).map (dlookup 0) ≠ some (some 0) := by
  with_unfolding_all decide

/-- C8: on the negative two-node cycle `0→1 (1)`, `1→0 (-2)` with source
`0`, the correction queue never empties — the run returns no numeric result
for any step budget whatsoever. -/
theorem c8_nonterm : ∀ f, shortest_path popHead G8 0 f = none := by
  have hswap : swapSt (visitNeighbors popHead G8 (initSt 0)) =
      ⟨[1], [], [(0, 0), (1, 1)], [], [], [0]⟩ := by
    with_unfolding_all rfl
  have hvisit : swapSt (visitNeighbors popHead G8
      (⟨[1], [], [(0, 0), (1, 1)], [], [], [0]⟩ : St)) = a8 1 := by
    with_unfolding_all decide
  intro f
  unfold shortest_path shortestPathState
  rw [hswap]
  cases f with
  | zero => simp [loop]
  | succ n =>
      simp only [loop]
      rw [if_neg (by simp), hvisit, (fixLoop_g8_none n).1 1]
      rfl

/-- C9 (counterexample): called with the source id `7`, which is not a node
of the four-node graph `G3`, `shortest_path` does not fail: it returns the
mapping `{7: 0}`. -/
theorem c9_counterexample :
    shortest_path popHead G3 7 5 = some [(7, 0)] ∧ ¬ 7 < G3.n := by
  with_unfolding_all decide

/-- C9 (amended): `shortest_path` performs no source validation: for any
source id with no outgoing edges — in particular any id that is not a node
of the graph — it returns the mapping `{source: 0}` instead of failing; any
invalid-node failure would have to come from the external graph
collaborator, not from this code. -/
theorem c9_amended (p : Popper) (g : Graph) (s : Nat) (f : Nat)
    (h : neighborsOut g s = []) : shortest_path p g s f = some [(s, 0)] := by
  have hlk : dlookup s [(s, (0 : ℚ))] = some 0 := by simp [dlookup]
  have hstep : visitStep p g (initSt s) =
      { check := [], check_next := [], distances := [(s, 0)],
        fix := [], new_processed := [s], processed := [] } := by
    unfold visitStep pop initSt
    simp [hlk, h, sinsert]
  have hloop1 : visitLoop p g (initSt s).check.length (initSt s)
      = visitStep p g (initSt s) := by
    show visitLoop p g 1 (initSt s) = _
    simp [visitLoop, initSt]
  have hvisit : visitNeighbors p g (initSt s) =
      { check := [], check_next := [], distances := [(s, 0)],
        fix := [], new_processed := [], processed := [s] } := by
    unfold visitNeighbors
    rw [hloop1, hstep]
    simp [sinsert]
  unfold shortest_path shortestPathState
  rw [hvisit]
  rw [loop_of_done p g f _ rfl rfl]
  with_unfolding_all rfl

theorem c9_amended_witness :
    shortest_path popHead G9 9 3 = some [(9, 0)] :=
  c9_amended popHead G9 9 3 (by with_unfolding_all rfl)

/-! ## Association-list, set and pop lemmas -/

theorem dlookup_cons (v : Nat) (e : Nat × ℚ) (d : List (Nat × ℚ)) :
    dlookup v (e :: d) = if e.1 = v then some e.2 else dlookup v d := by
  by_cases h : e.1 = v
  · simp [dlookup, List.find?_cons_of_pos, h]
  · have hb : (e.1 == v) = false := by simp [h]
    simp [dlookup, List.find?_cons_of_neg, hb, h]

theorem dlookup_dupdate (v : Nat) (q : ℚ) (d : List (Nat × ℚ)) (x : Nat) :
    dlookup x (dupdate v q d) = if x = v then some q else dlookup x d := by
  induction d with
  | nil =>
      by_cases h : x = v <;> simp [dupdate, dlookup_cons, h] <;> simp [dlookup]
      · intro h'; exact absurd h'.symm h
  | cons e rest ih =>
      by_cases he : e.1 = v
      · rw [show dupdate v q (e :: rest) = (v, q) :: rest by simp [dupdate, he]]
        by_cases hx : x = v
        · simp [dlookup_cons, hx]
        · have hex : e.1 ≠ x := fun hh => hx (hh ▸ he)
          rw [dlookup_cons, dlookup_cons, if_neg (fun hh : (v : Nat) = x => hx hh.symm),
            if_neg hx, if_neg hex]
      · rw [show dupdate v q (e :: rest) = e :: dupdate v q rest by simp [dupdate, he]]
        rw [dlookup_cons, dlookup_cons, ih]
        by_cases hex : e.1 = x
        · rw [if_pos hex, if_pos hex, if_neg (fun hh : x = v => he (hex.trans hh))]
        · rw [if_neg hex, if_neg hex]

theorem haskey_iff (d : List (Nat × ℚ)) (v : Nat) :
    HasKey d v ↔ ∃ q, dlookup v d = some q := by
  unfold HasKey
  cases h : dlookup v d <;> simp

theorem distEvol_refl (d : List (Nat × ℚ)) : DistEvol d d :=
  fun v q h => ⟨q, h, le_refl q⟩

theorem distEvol_trans {d1 d2 d3 : List (Nat × ℚ)}
    (h12 : DistEvol d1 d2) (h23 : DistEvol d2 d3) : DistEvol d1 d3 := by
  intro v q h1
  obtain ⟨q2, h2, hle2⟩ := h12 v q h1
  obtain ⟨q3, h3, hle3⟩ := h23 v q2 h2
  exact ⟨q3, h3, le_trans hle3 hle2⟩

theorem distEvol_update (v : Nat) (q : ℚ) (d : List (Nat × ℚ))
    (h : ∀ dv, dlookup v d = some dv → q ≤ dv) : DistEvol d (dupdate v q d) := by
  intro x qx hx
  by_cases hxv : x = v
  · subst hxv
    exact ⟨q, by simp [dlookup_dupdate], h qx hx⟩
  · exact ⟨qx, by simp [dlookup_dupdate, hxv, hx], le_refl qx⟩

theorem haskey_mono {d d' : List (Nat × ℚ)} (h : DistEvol d d') {v : Nat}
    (hv : HasKey d v) : HasKey d' v := by
  obtain ⟨q, hq⟩ := (haskey_iff d v).mp hv
  obtain ⟨q', hq', _⟩ := h v q hq
  exact (haskey_iff d' v).mpr ⟨q', hq'⟩

theorem mem_sinsert (x y : Nat) (l : List Nat) :
    y ∈ sinsert x l ↔ y = x ∨ y ∈ l := by
  unfold sinsert
  by_cases h : x ∈ l
  · simp only [if_pos h]
    constructor
    · exact fun hy => Or.inr hy
    · rintro (rfl | hy) <;> assumption
  · simp [if_neg h]

theorem pop_fst_mem (p : Popper) (l : List Nat) (h : l ≠ []) :
    (pop p l).1 ∈ l := by
  have hlen : 0 < l.length := List.length_pos.mpr h
  have hi : Nat.min (p l) (l.length - 1) < l.length :=
    lt_of_le_of_lt (Nat.min_le_right _ _) (Nat.sub_lt hlen one_pos)
  simp only [pop, List.getD_eq_getElem?_getD]
  rw [List.getElem?_eq_getElem hi]
  exact List.getElem_mem _

theorem pop_snd_subset (p : Popper) (l : List Nat) : (pop p l).2 ⊆ l :=
  (List.eraseIdx_sublist l _).subset

theorem eraseIdx_mem_cases (l : List Nat) (i : Nat) (x : Nat) (hx : x ∈ l) :
    x = l.getD i 0 ∨ x ∈ l.eraseIdx i := by
  induction l generalizing i with
  | nil => cases hx
  | cons a t ih =>
      cases i with
      | zero =>
          rcases List.mem_cons.mp hx with rfl | hxt
          · exact Or.inl rfl
          · exact Or.inr (by simpa [List.eraseIdx] using hxt)
      | succ j =>
          rcases List.mem_cons.mp hx with rfl | hxt
          · exact Or.inr (by simp [List.eraseIdx])
          · rcases ih j hxt with h | h
            · exact Or.inl (by simpa [List.getD] using h)
            · exact Or.inr (by simp [List.eraseIdx, h])

theorem pop_mem_cases (p : Popper) (l : List Nat) (x : Nat) (hx : x ∈ l) :
    x = (pop p l).1 ∨ x ∈ (pop p l).2 :=
  eraseIdx_mem_cases l _ x hx

theorem pop_snd_length (p : Popper) (l : List Nat) (h : l ≠ []) :
    (pop p l).2.length < l.length := by
  have hlen : 0 < l.length := List.length_pos.mpr h
  have hi : Nat.min (p l) (l.length - 1) < l.length :=
    lt_of_le_of_lt (Nat.min_le_right _ _) (Nat.sub_lt hlen one_pos)
  simp only [pop]
  rw [List.length_eraseIdx]
  simp only [hi, if_pos]
  exact Nat.sub_lt hlen one_pos

theorem mem_foldl_sinsert (L acc : List Nat) (x : Nat) :
    x ∈ L.foldl (fun a y => sinsert y a) acc ↔ x ∈ L ∨ x ∈ acc := by
  induction L generalizing acc with
  | nil => simp
  | cons a t ih =>
      simp only [List.foldl_cons, ih, mem_sinsert, List.mem_cons]
      tauto

/-! ## Walk and path lemmas -/

theorem pathW_concat (g : Graph) :
    ∀ (l : List Nat) (u : Nat), l.getLast? = some u →
      ∀ v, pathW g (l ++ [v]) = pathW g l + edgeWeight g u v
  | [], u, h, v => by simp at h
  | [x], u, h, v => by
      simp only [List.getLast?_singleton, Option.some.injEq] at h
      subst h
      simp [pathW]
  | x :: y :: r, u, h, v => by
      rw [List.getLast?_cons_cons] at h
      have ih := pathW_concat g (y :: r) u h v
      show pathW g (x :: ((y :: r) ++ [v])) = pathW g (x :: y :: r) + edgeWeight g u v
      rw [show pathW g (x :: ((y :: r) ++ [v]))
            = edgeWeight g x y + pathW g ((y :: r) ++ [v]) from rfl]
      rw [ih]
      show _ = edgeWeight g x y + pathW g (y :: r) + edgeWeight g u v
      ring

theorem pathW_split (g : Graph) :
    ∀ (A : List Nat) (v : Nat) (B : List Nat),
      pathW g (A ++ v :: B) = pathW g (A ++ [v]) + pathW g (v :: B)
  | [], v, B => by simp [pathW]
  | [x], v, B => by
      show pathW g (x :: v :: B) = pathW g [x, v] + pathW g (v :: B)
      show edgeWeight g x v + pathW g (v :: B)
        = (edgeWeight g x v + pathW g [v]) + pathW g (v :: B)
      simp [pathW]
  | x :: y :: r, v, B => by
      have ih := pathW_split g (y :: r) v B
      show pathW g (x :: ((y :: r) ++ v :: B)) = pathW g (x :: ((y :: r) ++ [v])) + pathW g (v :: B)
      rw [show pathW g (x :: ((y :: r) ++ v :: B))
            = edgeWeight g x y + pathW g ((y :: r) ++ v :: B) from rfl]
      rw [show pathW g (x :: ((y :: r) ++ [v]))
            = edgeWeight g x y + pathW g ((y :: r) ++ [v]) from rfl]
      rw [ih]
      ring

theorem chain'_concat_of (g : Graph) {l : List Nat} {u v : Nat}
    (hc : List.Chain' (Adj g) l) (hl : l.getLast? = some u) (ha : Adj g u v) :
    List.Chain' (Adj g) (l ++ [v]) := by
  refine List.Chain'.append hc (List.chain'_singleton v) ?_
  intro x hx y hy
  simp only [List.head?_cons, Option.mem_def, Option.some.injEq] at hy
  rw [hl] at hx
  simp only [Option.mem_def, Option.some.injEq] at hx
  subst hx; subst hy
  exact ha

theorem head?_of_pref {α : Type} {pre l : List α} (h : pre <+: l) (hne : pre ≠ []) :
    pre.head? = l.head? := by
  obtain ⟨t, rfl⟩ := h
  cases pre with
  | nil => exact absurd rfl hne
  | cons a r => simp

theorem reach_self (g : Graph) (s : Nat) : Reach g s s :=
  ⟨[s], by simp, List.chain'_singleton s, rfl, rfl⟩

theorem reach_extend {g : Graph} {s u v : Nat} (h : Reach g s u) (ha : Adj g u v) :
    Reach g s v := by
  obtain ⟨l, hne, hch, hh, hl⟩ := h
  refine ⟨l ++ [v], by simp, chain'_concat_of g hch hl ha, ?_, List.getLast?_concat l⟩
  rw [List.head?_append_of_ne_nil _ hne]
  exact hh

theorem spath_mem_reach {g : Graph} {s v x : Nat} {l : List Nat}
    (hP : SPath g s v l) (hx : x ∈ l) : Reach g s x := by
  obtain ⟨hne, hch, hh, hl, hnd⟩ := hP
  obtain ⟨A, B, rfl⟩ := List.append_of_mem hx
  have hpre : (A ++ [x]) <+: (A ++ x :: B) := ⟨B, by simp⟩
  refine ⟨A ++ [x], by simp, hch.prefix hpre, ?_, List.getLast?_concat A⟩
  rw [head?_of_pref hpre (by simp)]
  exact hh

theorem spath_self_eq {g : Graph} {s : Nat} {l : List Nat}
    (h : SPath g s s l) : l = [s] := by
  obtain ⟨hne, hch, hh, hl, hnd⟩ := h
  cases l with
  | nil => exact absurd rfl hne
  | cons x t =>
      simp only [List.head?_cons, Option.some.injEq] at hh
      subst hh
      cases t with
      | nil => rfl
      | cons y r =>
          rw [List.getLast?_cons_cons] at hl
          have hmem : x ∈ y :: r := List.mem_of_mem_getLast? (by rw [hl]; rfl)
          have : x ∉ y :: r := (List.nodup_cons.mp hnd).1
          exact absurd hmem this

theorem preb_mono {g : Graph} {d d' : List (Nat × ℚ)} {l : List Nat}
    (h : DistEvol d d') (hp : PreB g d l) : PreB g d' l := by
  intro pre x hne hpre hx
  obtain ⟨qx, hq, hle⟩ := hp pre x hne hpre hx
  obtain ⟨qx', hq', hle'⟩ := h x qx hq
  exact ⟨qx', hq', le_trans hle' hle⟩

theorem baseok_mono {g : Graph} {s : Nat} {d d' : List (Nat × ℚ)} {u : Nat} {b : ℚ}
    (h : DistEvol d d') (hb : BaseOK g s d u b) : BaseOK g s d' u b := by
  obtain ⟨P, hP, hw, hp⟩ := hb
  exact ⟨P, hP, hw, preb_mono h hp⟩

theorem goodDist_baseok {g : Graph} {s : Nat} {d : List (Nat × ℚ)} {u : Nat} {b : ℚ}
    (hg : GoodDist g s d) (h : dlookup u d = some b) : BaseOK g s d u b := by
  obtain ⟨l, hl, hw, hp⟩ := hg u b h
  exact ⟨l, hl, hw, hp⟩

theorem adj_edge {g : Graph} {u v : Nat} (h : Adj g u v) :
    ∃ e ∈ g.edges, e.1 = u ∧ e.2.1 = v ∧ e.2.2 = edgeWeight g u v := by
  obtain ⟨e₁, he₁f, he₁v⟩ := List.mem_map.mp h
  have he₁ := List.mem_filter.mp he₁f
  have hex : ∃ x ∈ g.edges, (fun e => e.1 == u && e.2.1 == v) x = true := by
    refine ⟨e₁, he₁.1, ?_⟩
    simp only [Bool.and_eq_true, beq_iff_eq]
    exact ⟨by simpa using he₁.2, he₁v⟩
  rcases hfind : g.edges.find? (fun e => e.1 == u && e.2.1 == v) with _ | e₀
  · rw [List.find?_eq_none] at hfind
    obtain ⟨x, hx, hpx⟩ := hex
    exact absurd hpx (by simpa using hfind x hx)
  · have hmem := List.mem_of_find?_eq_some hfind
    have hpred := List.find?_some hfind
    simp only [Bool.and_eq_true, beq_iff_eq] at hpred
    refine ⟨e₀, hmem, hpred.1, hpred.2, ?_⟩
    unfold edgeWeight
    rw [hfind]
    rfl

/-! ## Preservation of the distance-table invariant by a single relaxation -/

theorem good_relax (g : Graph) (s : Nat) (hNN : NoNegCycle g s)
    {d : List (Nat × ℚ)} (hg : GoodDist g s d) {u v : Nat} {b : ℚ}
    (hB : BaseOK g s d u b) (hAdj : Adj g u v)
    (himp : ∀ dv, dlookup v d = some dv → b + edgeWeight g u v < dv) :
    GoodDist g s (dupdate v (b + edgeWeight g u v) d) ∧
    DistEvol d (dupdate v (b + edgeWeight g u v) d) := by
  obtain ⟨P, hP, hPw, hPre⟩ := hB
  obtain ⟨hPne, hPch, hPh, hPl, hPnd⟩ := hP
  have hvP : v ∉ P := by
    intro hv
    obtain ⟨A, B, hAB⟩ := List.append_of_mem hv
    subst hAB
    have hpre : (A ++ [v]) <+: (A ++ v :: B) := ⟨B, by simp⟩
    obtain ⟨qv, hqv, hqvle⟩ :=
      hPre (A ++ [v]) v (by simp) hpre (List.getLast?_concat A)
    have himp' := himp qv hqv
    have hlast : (v :: B).getLast? = some u := by
      rw [List.getLast?_append_cons] at hPl
      exact hPl
    have hch : List.Chain' (Adj g) (v :: B) := hPch.suffix ⟨A, rfl⟩
    have hnd : (v :: B).Nodup :=
      List.Nodup.sublist (List.sublist_append_right A (v :: B)) hPnd
    have hreach : ∀ x ∈ v :: B, Reach g s x := fun x hx =>
      spath_mem_reach ⟨hPne, hPch, hPh, hPl, hPnd⟩ (List.mem_append.mpr (Or.inr hx))
    have hcyc := hNN (v :: B) u v (by simp) hch hnd hreach hlast rfl hAdj
    have hsplit := pathW_split g A v B
    rw [← hPw] at himp'
    rw [hsplit] at himp'
    linarith
  have hEvol : DistEvol d (dupdate v (b + edgeWeight g u v) d) :=
    distEvol_update v (b + edgeWeight g u v) d (fun dv hdv => le_of_lt (himp dv hdv))
  have hP'w : pathW g (P ++ [v]) = b + edgeWeight g u v := by
    rw [pathW_concat g P u hPl v, hPw]
  have hP'path : SPath g s v (P ++ [v]) := by
    refine ⟨by simp, chain'_concat_of g hPch hPl hAdj, ?_, List.getLast?_concat P, ?_⟩
    · rw [List.head?_append_of_ne_nil _ hPne]
      exact hPh
    · rw [List.nodup_append]
      exact ⟨hPnd, List.nodup_singleton v, by simpa [List.disjoint_singleton] using hvP⟩
  have hP'pre : PreB g (dupdate v (b + edgeWeight g u v) d) (P ++ [v]) := by
    intro pre x hne hpre hx
    rcases List.prefix_concat_iff.mp hpre with hfull | hpre'
    · subst hfull
      rw [List.getLast?_concat] at hx
      injection hx with hx
      subst hx
      refine ⟨b + edgeWeight g u v, by simp [dlookup_dupdate], le_of_eq hP'w.symm⟩
    · have hxP : x ∈ pre := List.mem_of_mem_getLast? (by rw [hx]; rfl)
      have hxv : x ≠ v := fun h => hvP (h ▸ hpre'.subset hxP)
      obtain ⟨qx, hqx, hqxle⟩ := hPre pre x hne hpre' hx
      exact ⟨qx, by rw [dlookup_dupdate, if_neg hxv]; exact hqx, hqxle⟩
  refine ⟨?_, hEvol⟩
  intro y q hy
  by_cases hyv : y = v
  · rw [hyv] at hy ⊢
    rw [dlookup_dupdate, if_pos rfl] at hy
    injection hy with hy
    exact ⟨P ++ [v], hP'path, by rw [hP'w, hy], hP'pre⟩
  · rw [dlookup_dupdate, if_neg hyv] at hy
    obtain ⟨L, hL, hLw, hLpre⟩ := hg y q hy
    exact ⟨L, hL, hLw, preb_mono hEvol hLpre⟩

theorem relaxVisit_good (g : Graph) (s : Nat) (hNN : NoNegCycle g s)
    {st : St} {u v : Nat} {b : ℚ}
    (hg : GoodDist g s st.distances) (hB : BaseOK g s st.distances u b)
    (hAdj : Adj g u v) :
    GoodDist g s (relaxVisit g u b st v).distances ∧
    DistEvol st.distances (relaxVisit g u b st v).distances := by
  unfold relaxVisit
  split
  · rename_i heq
    exact good_relax g s hNN hg hB hAdj
      (fun dv hdv => absurd (heq ▸ hdv) (by simp))
  · rename_i dv heq
    split
    · rename_i himp
      refine good_relax g s hNN hg hB hAdj (fun dv' hdv' => ?_)
      rw [heq] at hdv'
      injection hdv' with hdv'
      rw [hdv'] at himp
      exact himp
    · exact ⟨hg, distEvol_refl _⟩

theorem relaxFix_good (g : Graph) (s : Nat) (hNN : NoNegCycle g s)
    {st : St} {u v : Nat} {b : ℚ}
    (hg : GoodDist g s st.distances) (hB : BaseOK g s st.distances u b)
    (hAdj : Adj g u v) :
    GoodDist g s (relaxFix g u b st v).distances ∧
    DistEvol st.distances (relaxFix g u b st v).distances := by
  unfold relaxFix
  split
  · exact ⟨hg, distEvol_refl _⟩
  · rename_i dv heq
    split
    · rename_i himp
      refine good_relax g s hNN hg hB hAdj (fun dv' hdv' => ?_)
      rw [heq] at hdv'
      injection hdv' with hdv'
      rw [hdv'] at himp
      exact himp
    · exact ⟨hg, distEvol_refl _⟩

theorem foldl_relaxVisit_good (g : Graph) (s : Nat) (hNN : NoNegCycle g s)
    (u : Nat) (b : ℚ) :
    ∀ (L : List Nat) (st : St), (∀ v ∈ L, Adj g u v) →
      GoodDist g s st.distances → BaseOK g s st.distances u b →
      GoodDist g s (L.foldl (relaxVisit g u b) st).distances ∧
      DistEvol st.distances (L.foldl (relaxVisit g u b) st).distances := by
  intro L
  induction L with
  | nil => exact fun st _ hg _ => ⟨hg, distEvol_refl _⟩
  | cons a t ih =>
      intro st hadj hg hB
      obtain ⟨hg', hev'⟩ :=
        relaxVisit_good g s hNN hg hB (hadj a (List.mem_cons_self a t))
      have hB' := baseok_mono hev' hB
      obtain ⟨hg'', hev''⟩ := ih (relaxVisit g u b st a)
        (fun v hv => hadj v (List.mem_cons_of_mem a hv)) hg' hB'
      exact ⟨hg'', distEvol_trans hev' hev''⟩

theorem foldl_relaxFix_good (g : Graph) (s : Nat) (hNN : NoNegCycle g s)
    (u : Nat) (b : ℚ) :
    ∀ (L : List Nat) (st : St), (∀ v ∈ L, Adj g u v) →
      GoodDist g s st.distances → BaseOK g s st.distances u b →
      GoodDist g s (L.foldl (relaxFix g u b) st).distances ∧
      DistEvol st.distances (L.foldl (relaxFix g u b) st).distances := by
  intro L
  induction L with
  | nil => exact fun st _ hg _ => ⟨hg, distEvol_refl _⟩
  | cons a t ih =>
      intro st hadj hg hB
      obtain ⟨hg', hev'⟩ :=
        relaxFix_good g s hNN hg hB (hadj a (List.mem_cons_self a t))
      have hB' := baseok_mono hev' hB
      obtain ⟨hg'', hev''⟩ := ih (relaxFix g u b st a)
        (fun v hv => hadj v (List.mem_cons_of_mem a hv)) hg' hB'
      exact ⟨hg'', distEvol_trans hev' hev''⟩

theorem visitStep_good (p : Popper) (g : Graph) (s : Nat) (hNN : NoNegCycle g s)
    (st : St) (hg : GoodDist g s st.distances) :
    GoodDist g s (visitStep p g st).distances ∧
    DistEvol st.distances (visitStep p g st).distances := by
  unfold visitStep
  split
  · exact ⟨hg, distEvol_refl _⟩
  · rename_i b heq
    exact foldl_relaxVisit_good g s hNN _ b (neighborsOut g _) _
      (fun v hv => hv) hg (goodDist_baseok hg heq)

theorem fixStep_good (p : Popper) (g : Graph) (s : Nat) (hNN : NoNegCycle g s)
    (st : St) (hg : GoodDist g s st.distances) :
    GoodDist g s (fixStep p g st).distances ∧
    DistEvol st.distances (fixStep p g st).distances := by
  unfold fixStep
  split
  · exact ⟨hg, distEvol_refl _⟩
  · rename_i b heq
    exact foldl_relaxFix_good g s hNN _ b (neighborsOut g _) _
      (fun v hv => hv) hg (goodDist_baseok hg heq)

theorem visitLoop_good (p : Popper) (g : Graph) (s : Nat) (hNN : NoNegCycle g s) :
    ∀ (f : Nat) (st : St), GoodDist g s st.distances →
      GoodDist g s (visitLoop p g f st).distances ∧
      DistEvol st.distances (visitLoop p g f st).distances := by
  intro f
  induction f with
  | zero => exact fun st hg => ⟨hg, distEvol_refl _⟩
  | succ k ih =>
      intro st hg
      by_cases hc : st.check = []
      · rw [show visitLoop p g (k + 1) st = st by simp [visitLoop, hc]]
        exact ⟨hg, distEvol_refl _⟩
      · rw [show visitLoop p g (k + 1) st = visitLoop p g k (visitStep p g st) by
          simp [visitLoop, hc]]
        obtain ⟨hg', hev'⟩ := visitStep_good p g s hNN st hg
        obtain ⟨hg'', hev''⟩ := ih (visitStep p g st) hg'
        exact ⟨hg'', distEvol_trans hev' hev''⟩

theorem visitNeighbors_good (p : Popper) (g : Graph) (s : Nat)
    (hNN : NoNegCycle g s) (st : St) (hg : GoodDist g s st.distances) :
    GoodDist g s (visitNeighbors p g st).distances ∧
    DistEvol st.distances (visitNeighbors p g st).distances :=
  visitLoop_good p g s hNN st.check.length st hg

theorem fixLoop_good (p : Popper) (g : Graph) (s : Nat) (hNN : NoNegCycle g s) :
    ∀ (f : Nat) (st st' : St), GoodDist g s st.distances →
      fixLoop p g f st = some st' →
      GoodDist g s st'.distances ∧ DistEvol st.distances st'.distances := by
  intro f
  induction f with
  | zero =>
      intro st st' hg h
      simp only [fixLoop] at h
      split at h
      · injection h with h
        subst h
        exact ⟨hg, distEvol_refl _⟩
      · exact absurd h (by simp)
  | succ k ih =>
      intro st st' hg h
      simp only [fixLoop] at h
      split at h
      · injection h with h
        subst h
        exact ⟨hg, distEvol_refl _⟩
      · obtain ⟨hg', hev'⟩ := fixStep_good p g s hNN st hg
        obtain ⟨hg'', hev''⟩ := ih (fixStep p g st) st' hg' h
        exact ⟨hg'', distEvol_trans hev' hev''⟩

theorem loop_good (p : Popper) (g : Graph) (s : Nat) (hNN : NoNegCycle g s) :
    ∀ (f : Nat) (st st' : St), GoodDist g s st.distances →
      loop p g f st = some st' →
      GoodDist g s st'.distances ∧ DistEvol st.distances st'.distances := by
  intro f
  induction f with
  | zero =>
      intro st st' hg h
      simp only [loop] at h
      split at h
      · injection h with h
        subst h
        exact ⟨hg, distEvol_refl _⟩
      · exact absurd h (by simp)
  | succ k ih =>
      intro st st' hg h
      simp only [loop] at h
      split at h
      · injection h with h
        subst h
        exact ⟨hg, distEvol_refl _⟩
      · rcases hfx : fixLoop p g k (swapSt (visitNeighbors p g st)) with _ | stm
        · rw [hfx] at h
          exact absurd h (by simp)
        · rw [hfx] at h
          obtain ⟨hg1, hev1⟩ := visitNeighbors_good p g s hNN st hg
          obtain ⟨hg2, hev2⟩ :=
            fixLoop_good p g s hNN k (swapSt (visitNeighbors p g st)) stm hg1 hfx
          obtain ⟨hg3, hev3⟩ := ih stm st' hg2 h
          exact ⟨hg3, distEvol_trans hev1 (distEvol_trans hev2 hev3)⟩

theorem initSt_good (g : Graph) (s : Nat) : GoodDist g s (initSt s).distances := by
  intro v q hv
  rw [show (initSt s).distances = [(s, 0)] from rfl, dlookup_cons] at hv
  by_cases hsv : s = v
  · rw [if_pos hsv] at hv
    injection hv with hv
    subst hsv
    refine ⟨[s], ⟨by simp, List.chain'_singleton s, rfl, rfl, List.nodup_singleton s⟩,
      by rw [← hv]; rfl, ?_⟩
    intro pre x hne hpre hx
    have hps : pre = [s] := by
      obtain ⟨t, ht⟩ := hpre
      cases pre with
      | nil => exact absurd rfl hne
      | cons a r =>
          simp only [List.cons_append, List.cons.injEq] at ht
          obtain ⟨rfl, ht2⟩ := ht
          have : r = [] := by
            rcases List.append_eq_nil.mp ht2 with ⟨h1, _⟩
            exact h1
          rw [this]
    subst hps
    simp only [List.getLast?_singleton, Option.some.injEq] at hx
    subst hx
    refine ⟨0, by simp [initSt, dlookup_cons], le_of_eq ?_⟩
    rfl
  · rw [if_neg hsv] at hv
    exact Option.noConfusion hv

theorem shortestPathState_good (p : Popper) (g : Graph) (s : Nat)
    (hNN : NoNegCycle g s) (f : Nat) (st : St)
    (h : shortestPathState p g s f = some st) :
    GoodDist g s st.distances := by
  unfold shortestPathState at h
  obtain ⟨hg1, _⟩ :=
    visitNeighbors_good p g s hNN (initSt s) (initSt_good g s)
  exact (loop_good p g s hNN f (swapSt (visitNeighbors p g (initSt s))) st hg1 h).1

/-! ## The reference Bellman-Ford sweep bounds every path weight -/

theorem bfRelaxEdge_evol (d : List (Nat × ℚ)) (e : Nat × Nat × ℚ) :
    DistEvol d (bfRelaxEdge d e) := by
  unfold bfRelaxEdge
  split
  · exact distEvol_refl d
  · rename_i du hdu
    split
    · rename_i hv
      exact distEvol_update _ _ d (fun dv hdv => absurd (hv ▸ hdv) (by simp))
    · rename_i dv hv
      split
      · rename_i hlt
        refine distEvol_update _ _ d (fun dv' hdv' => ?_)
        rw [hv] at hdv'
        injection hdv' with hdv'
        rw [hdv'] at hlt
        exact le_of_lt hlt
      · exact distEvol_refl d

theorem foldl_bfRelaxEdge_evol (L : List (Nat × Nat × ℚ)) :
    ∀ d, DistEvol d (L.foldl bfRelaxEdge d) := by
  induction L with
  | nil => exact fun d => distEvol_refl d
  | cons e t ih =>
      intro d
      exact distEvol_trans (bfRelaxEdge_evol d e) (ih (bfRelaxEdge d e))

theorem bfIter_evol (g : Graph) (s : Nat) :
    ∀ k, DistEvol [(s, 0)] (bfIter g s k) := by
  intro k
  induction k with
  | zero => exact distEvol_refl _
  | succ m ih => exact distEvol_trans ih (foldl_bfRelaxEdge_evol g.edges (bfIter g s m))

theorem bfRelaxEdge_bound (d : List (Nat × ℚ)) (e : Nat × Nat × ℚ) (du : ℚ)
    (h : dlookup e.1 d = some du) :
    ∃ qv, dlookup e.2.1 (bfRelaxEdge d e) = some qv ∧ qv ≤ du + e.2.2 := by
  unfold bfRelaxEdge
  split
  · rename_i hnone
    rw [h] at hnone
    cases hnone
  · rename_i du' hdu
    rw [h] at hdu
    injection hdu with hdu
    subst hdu
    split
    · exact ⟨du + e.2.2, by simp [dlookup_dupdate], le_refl _⟩
    · rename_i dv hv
      split
      · exact ⟨du + e.2.2, by simp [dlookup_dupdate], le_refl _⟩
      · rename_i hlt
        exact ⟨dv, hv, le_of_not_lt hlt⟩

theorem bfRound_bound (g : Graph) (d : List (Nat × ℚ)) (e : Nat × Nat × ℚ)
    (he : e ∈ g.edges) (du : ℚ) (h : dlookup e.1 d = some du) :
    ∃ qv, dlookup e.2.1 (bfRound g d) = some qv ∧ qv ≤ du + e.2.2 := by
  obtain ⟨L₁, L₂, hsplit⟩ := List.append_of_mem he
  unfold bfRound
  rw [hsplit, List.foldl_append, List.foldl_cons]
  obtain ⟨du₁, hdu₁, hdu₁le⟩ := foldl_bfRelaxEdge_evol L₁ d e.1 du h
  obtain ⟨qv₁, hqv₁, hqv₁le⟩ := bfRelaxEdge_bound (L₁.foldl bfRelaxEdge d) e du₁ hdu₁
  obtain ⟨qv, hqv, hqvle⟩ := foldl_bfRelaxEdge_evol L₂ _ e.2.1 qv₁ hqv₁
  exact ⟨qv, hqv, by linarith⟩

theorem bf_walk_bound (g : Graph) (s : Nat) :
    ∀ (R : Nat) (l : List Nat) (v : Nat), l ≠ [] → List.Chain' (Adj g) l →
      l.head? = some s → l.getLast? = some v → l.length ≤ R + 1 →
      ∃ q, dlookup v (bfIter g s R) = some q ∧ q ≤ pathW g l := by
  intro R
  induction R with
  | zero =>
      intro l v hne hch hh hl hlen
      have hsing : l = [v] := by
        cases l with
        | nil => exact absurd rfl hne
        | cons a t =>
            cases t with
            | nil =>
                simp only [List.getLast?_singleton, Option.some.injEq] at hl
                rw [hl]
            | cons b r => simp at hlen
      subst hsing
      simp only [List.head?_cons, Option.some.injEq] at hh
      rw [hh]
      exact ⟨0, by simp [bfIter, dlookup_cons], by rw [show pathW g [s] = 0 from rfl]⟩
  | succ R ih =>
      intro l v hne hch hh hl hlen
      rcases List.eq_nil_or_concat' l with rfl | ⟨l₀, x, rfl⟩
      · exact absurd rfl hne
      · rw [List.getLast?_concat] at hl
        injection hl with hl
        rw [← hl]
        cases l₀ with
        | nil =>
            simp only [List.nil_append, List.head?_cons, Option.some.injEq] at hh
            rw [hh]
            obtain ⟨q, hq, hqle⟩ := bfIter_evol g s (R + 1) s 0 (by simp [dlookup_cons])
            exact ⟨q, hq, by simpa [pathW] using hqle⟩
        | cons a t =>
            have hl₀ne : (a :: t) ≠ [] := by simp
            obtain ⟨u, hu⟩ : ∃ u, (a :: t).getLast? = some u :=
              ⟨_, List.getLast?_eq_getLast (a :: t) hl₀ne⟩
            have hch' := List.chain'_append.mp hch
            have hAdj : Adj g u x := by
              refine hch'.2.2 u ?_ x ?_
              · rw [hu]; rfl
              · rfl
            have hh' : (a :: t).head? = some s := by
              rw [List.head?_append_of_ne_nil _ hl₀ne] at hh
              exact hh
            have hlen' : (a :: t).length ≤ R + 1 := by
              rw [List.length_append] at hlen
              simp only [List.length_cons, List.length_singleton] at hlen ⊢
              omega
            obtain ⟨qu, hqu, hqule⟩ := ih (a :: t) u hl₀ne hch'.1 hh' hu hlen'
            obtain ⟨e₀, he₀, he₀1, he₀2, he₀w⟩ := adj_edge hAdj
            obtain ⟨qv, hqv, hqvle⟩ :=
              bfRound_bound g (bfIter g s R) e₀ he₀ qu (by rw [he₀1]; exact hqu)
            rw [he₀2] at hqv
            rw [he₀w] at hqvle
            refine ⟨qv, hqv, ?_⟩
            rw [pathW_concat g (a :: t) u hu x]
            linarith

theorem steps_adj (g : Graph) :
    ∀ l : List Nat, List.Chain' (Adj g) l → ∀ pr ∈ steps l, Adj g pr.1 pr.2
  | [], _, pr, hpr => by simp [steps] at hpr
  | [x], _, pr, hpr => by simp [steps] at hpr
  | x :: y :: r, hch, pr, hpr => by
      rw [show steps (x :: y :: r) = (x, y) :: steps (y :: r) from rfl] at hpr
      rcases List.mem_cons.mp hpr with rfl | hpr'
      · exact (List.chain'_cons.mp hch).1
      · exact steps_adj g (y :: r) (List.chain'_cons.mp hch).2 pr hpr'

theorem steps_fst_mem :
    ∀ (l : List Nat) (pr : Nat × Nat), pr ∈ steps l → pr.1 ∈ l
  | [], pr, hpr => by simp [steps] at hpr
  | [x], pr, hpr => by simp [steps] at hpr
  | x :: y :: r, pr, hpr => by
      rw [show steps (x :: y :: r) = (x, y) :: steps (y :: r) from rfl] at hpr
      rcases List.mem_cons.mp hpr with rfl | hpr'
      · exact List.mem_cons_self _ _
      · exact List.mem_cons_of_mem x (steps_fst_mem (y :: r) pr hpr')

theorem steps_nodup :
    ∀ l : List Nat, l.Nodup → (steps l).Nodup
  | [], _ => by simp [steps]
  | [x], _ => by simp [steps]
  | x :: y :: r, hnd => by
      rw [show steps (x :: y :: r) = (x, y) :: steps (y :: r) from rfl]
      rw [List.nodup_cons]
      refine ⟨?_, steps_nodup (y :: r) (List.nodup_cons.mp hnd).2⟩
      intro hmem
      have : (x, y).1 ∈ y :: r := steps_fst_mem (y :: r) (x, y) hmem
      exact (List.nodup_cons.mp hnd).1 this

theorem steps_length :
    ∀ l : List Nat, (steps l).length = l.length - 1
  | [] => rfl
  | [_] => rfl
  | x :: y :: r => by
      rw [show steps (x :: y :: r) = (x, y) :: steps (y :: r) from rfl]
      simp only [List.length_cons, steps_length (y :: r)]
      simp

theorem nodup_subset_length {α : Type} [DecidableEq α] {l₁ l₂ : List α}
    (hnd : l₁.Nodup) (hsub : l₁ ⊆ l₂) : l₁.length ≤ l₂.length := by
  have h1 : l₁.toFinset.card = l₁.length := List.toFinset_card_of_nodup hnd
  have h2 : l₁.toFinset ⊆ l₂.toFinset := by
    intro a ha
    rw [List.mem_toFinset] at ha ⊢
    exact hsub ha
  have h3 := Finset.card_le_card h2
  have h4 := l₂.toFinset_card_le
  omega

theorem spath_length {g : Graph} {s v : Nat} {l : List Nat}
    (h : SPath g s v l) : l.length ≤ g.edges.length + 1 := by
  obtain ⟨hne, hch, _, _, hnd⟩ := h
  have hsub : steps l ⊆ g.edges.map (fun e => (e.1, e.2.1)) := by
    intro pr hpr
    have hadj := steps_adj g l hch pr hpr
    obtain ⟨e₀, he₀, he₀1, he₀2, _⟩ := adj_edge hadj
    refine List.mem_map.mpr ⟨e₀, he₀, ?_⟩
    rw [he₀1, he₀2]
  have hlen := nodup_subset_length (steps_nodup l hnd) hsub
  rw [steps_length l, List.length_map] at hlen
  omega

theorem spath_trueDist_bound {g : Graph} {s v : Nat} {l : List Nat}
    (h : SPath g s v l) :
    ∃ q0, trueDist g s v = some q0 ∧ q0 ≤ pathW g l := by
  have hlen := spath_length h
  obtain ⟨hne, hch, hh, hl, _⟩ := h
  exact bf_walk_bound g s (g.edges.length + 1) l v hne hch hh hl (by omega)

theorem good_upper {g : Graph} {s : Nat} {d : List (Nat × ℚ)}
    (hg : GoodDist g s d) {v : Nat} {q : ℚ} (h : dlookup v d = some q) :
    ∃ q0, trueDist g s v = some q0 ∧ q0 ≤ q := by
  obtain ⟨l, hl, hw, _⟩ := hg v q h
  obtain ⟨q0, hq0, hq0le⟩ := spath_trueDist_bound hl
  exact ⟨q0, hq0, by rw [← hw]; exact hq0le⟩

theorem good_src_zero {g : Graph} {s : Nat} {d : List (Nat × ℚ)}
    (hg : GoodDist g s d) {q : ℚ} (h : dlookup s d = some q) : q = 0 := by
  obtain ⟨l, hl, hw, _⟩ := hg s q h
  rw [spath_self_eq hl] at hw
  rw [← hw]
  rfl

theorem relaxVisit_strict (g : Graph) (u : Nat) (b : ℚ) (st : St) (v : Nat)
    (dv dv' : ℚ) (h1 : dlookup v st.distances = some dv)
    (h2 : dlookup v (relaxVisit g u b st v).distances = some dv') :
    dv' = dv ∨ dv' < dv := by
  unfold relaxVisit at h2
  split at h2
  · rename_i hnone
    rw [h1] at hnone
    cases hnone
  · rename_i dv'' heq
    rw [h1] at heq
    injection heq with heq
    subst heq
    split at h2
    · rename_i hlt
      rw [dlookup_dupdate, if_pos rfl] at h2
      injection h2 with h2
      refine Or.inr ?_
      rw [← h2]
      exact hlt
    · rw [h1] at h2
      injection h2 with h2
      exact Or.inl h2.symm

theorem relaxFix_strict (g : Graph) (u : Nat) (b : ℚ) (st : St) (v : Nat)
    (dv dv' : ℚ) (h1 : dlookup v st.distances = some dv)
    (h2 : dlookup v (relaxFix g u b st v).distances = some dv') :
    dv' = dv ∨ dv' < dv := by
  unfold relaxFix at h2
  split at h2
  · rw [h1] at h2
    injection h2 with h2
    exact Or.inl h2.symm
  · rename_i dv'' heq
    rw [h1] at heq
    injection heq with heq
    subst heq
    split at h2
    · rename_i hlt
      rw [dlookup_dupdate, if_pos rfl] at h2
      injection h2 with h2
      refine Or.inr ?_
      rw [← h2]
      exact hlt
    · rw [h1] at h2
      injection h2 with h2
      exact Or.inl h2.symm

/-- C6: assuming no negative cycle is reachable from the source, the
distance-table invariant holds initially and is preserved by every Frontier
Expansion pass and every (terminating) Distance Correction pass; under it,
every present value is bounded below by the reference Bellman-Ford distance
(so it is an upper bound on the true shortest distance), a present value is
never increased — a single relaxation either keeps it or strictly decreases
it, and a whole pass never raises any present value — and the source's
entry, whenever present, is exactly `0`. -/
theorem c6_invariant (p : Popper) (g : Graph) (s : Nat) (hNN : NoNegCycle g s) :
    GoodDist g s (initSt s).distances ∧
    (∀ st : St, GoodDist g s st.distances →
      GoodDist g s (visitNeighbors p g st).distances ∧
      DistEvol st.distances (visitNeighbors p g st).distances) ∧
    (∀ (f : Nat) (st st' : St), GoodDist g s st.distances →
      fixLoop p g f st = some st' →
      GoodDist g s st'.distances ∧ DistEvol st.distances st'.distances) ∧
    (∀ (st : St) (u v : Nat) (b : ℚ) (dv dv' : ℚ),
      dlookup v st.distances = some dv →
      dlookup v (relaxVisit g u b st v).distances = some dv' →
      dv' = dv ∨ dv' < dv) ∧
    (∀ (st : St) (u v : Nat) (b : ℚ) (dv dv' : ℚ),
      dlookup v st.distances = some dv →
      dlookup v (relaxFix g u b st v).distances = some dv' →
      dv' = dv ∨ dv' < dv) ∧
    (∀ (d : List (Nat × ℚ)) (v : Nat) (q : ℚ), GoodDist g s d →
      dlookup v d = some q → ∃ q0, trueDist g s v = some q0 ∧ q0 ≤ q) ∧
    (∀ (d : List (Nat × ℚ)) (q : ℚ), GoodDist g s d →
      dlookup s d = some q → q = 0) :=
  ⟨initSt_good g s,
   fun st hg => visitNeighbors_good p g s hNN st hg,
   fun f st st' hg h => fixLoop_good p g s hNN f st st' hg h,
   fun st u v b dv dv' h1 h2 => relaxVisit_strict g u b st v dv dv' h1 h2,
   fun st u v b dv dv' h1 h2 => relaxFix_strict g u b st v dv dv' h1 h2,
   fun _ _ _ hg h => good_upper hg h,
   fun _ _ hg h => good_src_zero hg h⟩

theorem c6_invariant_witness :
    GoodDist G1 0 (initSt 0).distances ∧
    (∃ q0, trueDist G1 0 0 = some q0 ∧ q0 ≤ 0) := by
  have hNN : NoNegCycle G1 0 := by
    intro c u v hne hch hnd hr hl hh hadj
    simp [Adj, neighborsOut, G1] at hadj
  obtain ⟨h1, h2, h3, h4, h5, h6, h7⟩ := c6_invariant popHead G1 0 hNN
  exact ⟨h1, h6 (initSt 0).distances 0 0 h1 (by simp [initSt, dlookup_cons])⟩

/-! ## Structural effect of a single relaxation on the state's sets -/

theorem haskey_dupdate (v : Nat) (q : ℚ) (d : List (Nat × ℚ)) (x : Nat) :
    HasKey (dupdate v q d) x ↔ x = v ∨ HasKey d x := by
  constructor
  · intro hx
    obtain ⟨qx, hqx⟩ := (haskey_iff _ _).mp hx
    rw [dlookup_dupdate] at hqx
    by_cases hxv : x = v
    · exact Or.inl hxv
    · rw [if_neg hxv] at hqx
      exact Or.inr ((haskey_iff d x).mpr ⟨qx, hqx⟩)
  · rintro (rfl | hx)
    · exact (haskey_iff _ _).mpr ⟨q, by rw [dlookup_dupdate, if_pos rfl]⟩
    · obtain ⟨qx, hqx⟩ := (haskey_iff d x).mp hx
      by_cases hxv : x = v
      · exact (haskey_iff _ _).mpr ⟨q, by rw [dlookup_dupdate, if_pos hxv]⟩
      · exact (haskey_iff _ _).mpr ⟨qx, by rw [dlookup_dupdate, if_neg hxv]; exact hqx⟩

theorem relaxVisit_struct (g : Graph) (s u : Nat) (b : ℚ) (st : St) (v : Nat)
    (hu : Reach g s u) (hA : Adj g u v) :
    (relaxVisit g u b st v).check = st.check ∧
    (relaxVisit g u b st v).processed = st.processed ∧
    (relaxVisit g u b st v).new_processed = st.new_processed ∧
    (∀ x, HasKey st.distances x → HasKey (relaxVisit g u b st v).distances x) ∧
    HasKey (relaxVisit g u b st v).distances v ∧
    (∀ x, HasKey (relaxVisit g u b st v).distances x →
      HasKey st.distances x ∨ (Reach g s x ∧ x ∈ (relaxVisit g u b st v).check_next)) ∧
    (∀ x ∈ st.check_next, x ∈ (relaxVisit g u b st v).check_next) ∧
    (∀ x ∈ (relaxVisit g u b st v).check_next,
      x ∈ st.check_next ∨ HasKey (relaxVisit g u b st v).distances x) ∧
    (∀ x ∈ st.fix, x ∈ (relaxVisit g u b st v).fix) ∧
    (∀ x ∈ (relaxVisit g u b st v).fix,
      x ∈ st.fix ∨ (x ∈ st.processed ∧ HasKey (relaxVisit g u b st v).distances x)) := by
  unfold relaxVisit
  split
  · rename_i hnone
    refine ⟨rfl, rfl, rfl, ?_, ?_, ?_, ?_, ?_, fun x hx => hx, fun x hx => Or.inl hx⟩
    · intro x hx
      exact (haskey_dupdate _ _ _ _).mpr (Or.inr hx)
    · exact (haskey_dupdate _ _ _ _).mpr (Or.inl rfl)
    · intro x hx
      rcases (haskey_dupdate _ _ _ _).mp hx with rfl | hx'
      · exact Or.inr ⟨reach_extend hu hA, (mem_sinsert _ _ _).mpr (Or.inl rfl)⟩
      · exact Or.inl hx'
    · intro x hx
      exact (mem_sinsert _ _ _).mpr (Or.inr hx)
    · intro x hx
      rcases (mem_sinsert _ _ _).mp hx with rfl | hx'
      · exact Or.inr ((haskey_dupdate _ _ _ _).mpr (Or.inl rfl))
      · exact Or.inl hx'
  · rename_i dv heq
    have hkv : HasKey st.distances v := (haskey_iff _ _).mpr ⟨dv, heq⟩
    split
    · rename_i hlt
      refine ⟨rfl, rfl, rfl, ?_, ?_, ?_, fun x hx => hx, fun x hx => Or.inl hx, ?_, ?_⟩
      · intro x hx
        exact (haskey_dupdate _ _ _ _).mpr (Or.inr hx)
      · exact (haskey_dupdate _ _ _ _).mpr (Or.inl rfl)
      · intro x hx
        rcases (haskey_dupdate _ _ _ _).mp hx with rfl | hx'
        · exact Or.inl hkv
        · exact Or.inl hx'
      · intro x hx
        by_cases hvp : v ∈ st.processed
        · rw [if_pos hvp]
          exact (mem_sinsert _ _ _).mpr (Or.inr hx)
        · rw [if_neg hvp]
          exact hx
      · intro x hx
        by_cases hvp : v ∈ st.processed
        · rw [if_pos hvp] at hx
          rcases (mem_sinsert _ _ _).mp hx with rfl | hx'
          · exact Or.inr ⟨hvp, (haskey_dupdate _ _ _ _).mpr (Or.inl rfl)⟩
          · exact Or.inl hx'
        · rw [if_neg hvp] at hx
          exact Or.inl hx
    · exact ⟨rfl, rfl, rfl, fun x hx => hx, hkv,
        fun x hx => Or.inl hx, fun x hx => hx, fun x hx => Or.inl hx,
        fun x hx => hx, fun x hx => Or.inl hx⟩

theorem relaxFix_struct (g : Graph) (u : Nat) (b : ℚ) (st : St) (v : Nat) :
    (relaxFix g u b st v).check = st.check ∧
    (relaxFix g u b st v).check_next = st.check_next ∧
    (relaxFix g u b st v).processed = st.processed ∧
    (relaxFix g u b st v).new_processed = st.new_processed ∧
    (∀ x, HasKey (relaxFix g u b st v).distances x ↔ HasKey st.distances x) ∧
    (∀ x ∈ st.fix, x ∈ (relaxFix g u b st v).fix) ∧
    (∀ x ∈ (relaxFix g u b st v).fix,
      x ∈ st.fix ∨ (x ∈ st.processed ∧ HasKey st.distances x)) := by
  unfold relaxFix
  split
  · exact ⟨rfl, rfl, rfl, rfl, fun x => Iff.rfl, fun x hx => hx, fun x hx => Or.inl hx⟩
  · rename_i dv heq
    have hkv : HasKey st.distances v := (haskey_iff _ _).mpr ⟨dv, heq⟩
    split
    · rename_i hlt
      refine ⟨rfl, rfl, rfl, rfl, ?_, ?_, ?_⟩
      · intro x
        constructor
        · intro hx
          rcases (haskey_dupdate _ _ _ _).mp hx with rfl | hx'
          · exact hkv
          · exact hx'
        · intro hx
          exact (haskey_dupdate _ _ _ _).mpr (Or.inr hx)
      · intro x hx
        by_cases hvp : v ∈ st.processed
        · rw [if_pos hvp]
          exact (mem_sinsert _ _ _).mpr (Or.inr hx)
        · rw [if_neg hvp]
          exact hx
      · intro x hx
        by_cases hvp : v ∈ st.processed
        · rw [if_pos hvp] at hx
          rcases (mem_sinsert _ _ _).mp hx with rfl | hx'
          · exact Or.inr ⟨hvp, hkv⟩
          · exact Or.inl hx'
        · rw [if_neg hvp] at hx
          exact Or.inl hx
    · exact ⟨rfl, rfl, rfl, rfl, fun x => Iff.rfl, fun x hx => hx, fun x hx => Or.inl hx⟩

theorem foldl_relaxVisit_struct (g : Graph) (s u : Nat) (b : ℚ) (hu : Reach g s u) :
    ∀ (L : List Nat) (st : St), (∀ v ∈ L, Adj g u v) →
    (L.foldl (relaxVisit g u b) st).check = st.check ∧
    (L.foldl (relaxVisit g u b) st).processed = st.processed ∧
    (L.foldl (relaxVisit g u b) st).new_processed = st.new_processed ∧
    (∀ x, HasKey st.distances x → HasKey (L.foldl (relaxVisit g u b) st).distances x) ∧
    (∀ v ∈ L, HasKey (L.foldl (relaxVisit g u b) st).distances v) ∧
    (∀ x, HasKey (L.foldl (relaxVisit g u b) st).distances x →
      HasKey st.distances x ∨ (Reach g s x ∧ x ∈ (L.foldl (relaxVisit g u b) st).check_next)) ∧
    (∀ x ∈ st.check_next, x ∈ (L.foldl (relaxVisit g u b) st).check_next) ∧
    (∀ x ∈ (L.foldl (relaxVisit g u b) st).check_next,
      x ∈ st.check_next ∨ HasKey (L.foldl (relaxVisit g u b) st).distances x) ∧
    (∀ x ∈ st.fix, x ∈ (L.foldl (relaxVisit g u b) st).fix) ∧
    (∀ x ∈ (L.foldl (relaxVisit g u b) st).fix,
      x ∈ st.fix ∨ (x ∈ st.processed ∧ HasKey (L.foldl (relaxVisit g u b) st).distances x)) := by
  intro L
  induction L with
  | nil =>
      intro st _
      exact ⟨rfl, rfl, rfl, fun x hx => hx, fun v hv => absurd hv (by simp),
        fun x hx => Or.inl hx, fun x hx => hx, fun x hx => Or.inl hx,
        fun x hx => hx, fun x hx => Or.inl hx⟩
  | cons a t ih =>
      intro st hadj
      obtain ⟨s1, s2, s3, s4, s5, s6, s7, s8, s9, s10⟩ :=
        relaxVisit_struct g s u b st a hu (hadj a (List.mem_cons_self a t))
      obtain ⟨f1, f2, f3, f4, f5, f6, f7, f8, f9, f10⟩ :=
        ih (relaxVisit g u b st a) (fun v hv => hadj v (List.mem_cons_of_mem a hv))
      rw [List.foldl_cons]
      refine ⟨f1.trans s1, f2.trans s2, f3.trans s3, ?_, ?_, ?_, ?_, ?_, ?_, ?_⟩
      · exact fun x hx => f4 x (s4 x hx)
      · intro v hv
        rcases List.mem_cons.mp hv with rfl | hv'
        · exact f4 v s5
        · exact f5 v hv'
      · intro x hx
        rcases f6 x hx with hx' | ⟨hr, hcn⟩
        · rcases s6 x hx' with hx'' | ⟨hr, hcn⟩
          · exact Or.inl hx''
          · exact Or.inr ⟨hr, f7 x hcn⟩
        · exact Or.inr ⟨hr, hcn⟩
      · exact fun x hx => f7 x (s7 x hx)
      · intro x hx
        rcases f8 x hx with hx' | hk
        · rcases s8 x hx' with hx'' | hk
          · exact Or.inl hx''
          · exact Or.inr (f4 x hk)
        · exact Or.inr hk
      · exact fun x hx => f9 x (s9 x hx)
      · intro x hx
        rcases f10 x hx with hx' | ⟨hp, hk⟩
        · rcases s10 x hx' with hx'' | ⟨hp, hk⟩
          · exact Or.inl hx''
          · exact Or.inr ⟨hp, f4 x hk⟩
        · rw [s2] at hp
          exact Or.inr ⟨hp, hk⟩

theorem foldl_relaxFix_struct (g : Graph) (u : Nat) (b : ℚ) :
    ∀ (L : List Nat) (st : St),
    (L.foldl (relaxFix g u b) st).check = st.check ∧
    (L.foldl (relaxFix g u b) st).check_next = st.check_next ∧
    (L.foldl (relaxFix g u b) st).processed = st.processed ∧
    (L.foldl (relaxFix g u b) st).new_processed = st.new_processed ∧
    (∀ x, HasKey (L.foldl (relaxFix g u b) st).distances x ↔ HasKey st.distances x) ∧
    (∀ x ∈ st.fix, x ∈ (L.foldl (relaxFix g u b) st).fix) ∧
    (∀ x ∈ (L.foldl (relaxFix g u b) st).fix,
      x ∈ st.fix ∨ (x ∈ st.processed ∧ HasKey st.distances x)) := by
  intro L
  induction L with
  | nil =>
      intro st
      exact ⟨rfl, rfl, rfl, rfl, fun x => Iff.rfl, fun x hx => hx, fun x hx => Or.inl hx⟩
  | cons a t ih =>
      intro st
      obtain ⟨s1, s2, s3, s4, s5, s6, s7⟩ := relaxFix_struct g u b st a
      obtain ⟨f1, f2, f3, f4, f5, f6, f7⟩ := ih (relaxFix g u b st a)
      rw [List.foldl_cons]
      refine ⟨f1.trans s1, f2.trans s2, f3.trans s3, f4.trans s4,
        fun x => (f5 x).trans (s5 x), ?_, ?_⟩
      · exact fun x hx => f6 x (s6 x hx)
      · intro x hx
        rcases f7 x hx with hx' | ⟨hp, hk⟩
        · rcases s7 x hx' with hx'' | ⟨hp, hk⟩
          · exact Or.inl hx''
          · exact Or.inr ⟨hp, hk⟩
        · rw [s3] at hp
          rw [s5 x] at hk
          exact Or.inr ⟨hp, hk⟩

/-! ## The well-formedness invariant through the passes and the driver -/

theorem visitStep_wf (p : Popper) (g : Graph) (s : Nat) (st : St) (h : WF g s st) :
    WF g s (visitStep p g st) ∧
    (∀ x, HasKey st.distances x → HasKey (visitStep p g st).distances x) ∧
    (visitStep p g st).check = (pop p st.check).2 := by
  unfold visitStep
  split
  · rename_i hnone
    refine ⟨?_, fun x hx => hx, rfl⟩
    refine ⟨?_, h.cnext_key, h.fix_key, h.fix_proc, h.proc_closed, ?_,
      h.key_reach, h.src_key⟩
    · intro x hx
      exact h.check_key x (pop_snd_subset p st.check hx)
    · intro x hx
      rcases h.key_where x hx with hp | hnp | hc | hcn
      · exact Or.inl hp
      · exact Or.inr (Or.inl hnp)
      · rcases pop_mem_cases p st.check x hc with rfl | hr
        · exact absurd hx (by unfold HasKey; rw [hnone]; simp)
        · exact Or.inr (Or.inr (Or.inl hr))
      · exact Or.inr (Or.inr (Or.inr hcn))
  · rename_i b heq
    have hku : HasKey st.distances (pop p st.check).1 := (haskey_iff _ _).mpr ⟨b, heq⟩
    have hur : Reach g s (pop p st.check).1 := h.key_reach _ hku
    obtain ⟨f1, f2, f3, f4, f5, f6, f7, f8, f9, f10⟩ :=
      foldl_relaxVisit_struct g s (pop p st.check).1 b hur
        (neighborsOut g (pop p st.check).1)
        { st with check := (pop p st.check).2,
                  new_processed := sinsert (pop p st.check).1 st.new_processed }
        (fun v hv => hv)
    refine ⟨?_, f4, f1⟩
    refine ⟨?_, ?_, ?_, ?_, ?_, ?_, ?_, f4 s h.src_key⟩
    · intro x hx
      rw [f1] at hx
      exact f4 x (h.check_key x (pop_snd_subset p st.check hx))
    · intro x hx
      rcases f8 x hx with hx' | hk
      · exact f4 x (h.cnext_key x hx')
      · exact hk
    · intro x hx
      rcases f10 x hx with hx' | ⟨_, hk⟩
      · exact f4 x (h.fix_key x hx')
      · exact hk
    · intro x hx
      rcases f10 x hx with hx' | ⟨hp, _⟩
      · have := h.fix_proc x hx'
        rw [f2]
        exact this
      · rw [f2]
        exact hp
    · intro u' hu' v hA
      rw [f2] at hu'
      rw [f3] at hu'
      rcases hu' with hp | hnp
      · exact f4 v (h.proc_closed u' (Or.inl hp) v hA)
      · rcases (mem_sinsert _ _ _).mp hnp with rfl | hnp'
        · exact f5 v hA
        · exact f4 v (h.proc_closed u' (Or.inr hnp') v hA)
    · intro x hx
      rcases f6 x hx with hk | ⟨_, hcn⟩
      · rcases h.key_where x hk with hp | hnp | hc | hcn'
        · refine Or.inl ?_
          rw [f2]
          exact hp
        · refine Or.inr (Or.inl ?_)
          rw [f3]
          exact (mem_sinsert _ _ _).mpr (Or.inr hnp)
        · rcases pop_mem_cases p st.check x hc with rfl | hr
          · refine Or.inr (Or.inl ?_)
            rw [f3]
            exact (mem_sinsert _ _ _).mpr (Or.inl rfl)
          · refine Or.inr (Or.inr (Or.inl ?_))
            rw [f1]
            exact hr
        · exact Or.inr (Or.inr (Or.inr (f7 x hcn')))
      · exact Or.inr (Or.inr (Or.inr hcn))
    · intro x hx
      rcases f6 x hx with hk | ⟨hr, _⟩
      · exact h.key_reach x hk
      · exact hr

theorem visitLoop_wf (p : Popper) (g : Graph) (s : Nat) :
    ∀ (f : Nat) (st : St), WF g s st →
      WF g s (visitLoop p g f st) ∧
      (∀ x, HasKey st.distances x → HasKey (visitLoop p g f st).distances x) ∧
      (st.check.length ≤ f → (visitLoop p g f st).check = []) := by
  intro f
  induction f with
  | zero =>
      intro st h
      refine ⟨h, fun x hx => hx, fun hlen => ?_⟩
      exact List.length_eq_zero.mp (Nat.le_zero.mp hlen)
  | succ k ih =>
      intro st h
      by_cases hc : st.check = []
      · rw [show visitLoop p g (k + 1) st = st by simp [visitLoop, hc]]
        exact ⟨h, fun x hx => hx, fun _ => hc⟩
      · rw [show visitLoop p g (k + 1) st = visitLoop p g k (visitStep p g st) by
          simp [visitLoop, hc]]
        obtain ⟨h1, h2, h3⟩ := visitStep_wf p g s st h
        obtain ⟨i1, i2, i3⟩ := ih (visitStep p g st) h1
        refine ⟨i1, fun x hx => i2 x (h2 x hx), fun hlen => i3 ?_⟩
        rw [h3]
        have := pop_snd_length p st.check hc
        omega

theorem visitNeighbors_wf (p : Popper) (g : Graph) (s : Nat) (st : St)
    (h : WF g s st) :
    WF g s (visitNeighbors p g st) ∧
    (∀ x, HasKey st.distances x → HasKey (visitNeighbors p g st).distances x) ∧
    (visitNeighbors p g st).check = [] ∧
    (visitNeighbors p g st).new_processed = [] := by
  obtain ⟨h1, h2, h3⟩ := visitLoop_wf p g s st.check.length st h
  have hdrain := h3 (le_refl _)
  refine ⟨?_, h2, hdrain, rfl⟩
  refine ⟨h1.check_key, h1.cnext_key, h1.fix_key, ?_, ?_, ?_, h1.key_reach, h1.src_key⟩
  · intro x hx
    exact (mem_foldl_sinsert _ _ _).mpr (Or.inr (h1.fix_proc x hx))
  · intro u' hu' v hA
    rcases hu' with hp | hnp
    · rcases (mem_foldl_sinsert _ _ _).mp hp with hn | hp'
      · exact h1.proc_closed u' (Or.inr hn) v hA
      · exact h1.proc_closed u' (Or.inl hp') v hA
    · rw [show (visitNeighbors p g st).new_processed = [] from rfl] at hnp
      exact absurd hnp (List.not_mem_nil u')
  · intro x hx
    rcases h1.key_where x hx with hp | hnp | hc | hcn
    · exact Or.inl ((mem_foldl_sinsert _ _ _).mpr (Or.inr hp))
    · exact Or.inl ((mem_foldl_sinsert _ _ _).mpr (Or.inl hnp))
    · exact Or.inr (Or.inr (Or.inl hc))
    · exact Or.inr (Or.inr (Or.inr hcn))

theorem swapSt_wf (g : Graph) (s : Nat) (st : St) (h : WF g s st) :
    WF g s (swapSt st) := by
  refine ⟨h.cnext_key, h.check_key, h.fix_key, h.fix_proc, h.proc_closed, ?_,
    h.key_reach, h.src_key⟩
  intro v hv
  rcases h.key_where v hv with hp | hnp | hc | hcn
  · exact Or.inl hp
  · exact Or.inr (Or.inl hnp)
  · exact Or.inr (Or.inr (Or.inr hc))
  · exact Or.inr (Or.inr (Or.inl hcn))

theorem fixStep_wf (p : Popper) (g : Graph) (s : Nat) (st : St) (h : WF g s st) :
    WF g s (fixStep p g st) ∧
    (∀ x, HasKey (fixStep p g st).distances x ↔ HasKey st.distances x) ∧
    (fixStep p g st).check = st.check ∧
    (fixStep p g st).check_next = st.check_next ∧
    (fixStep p g st).processed = st.processed ∧
    (fixStep p g st).new_processed = st.new_processed := by
  unfold fixStep
  split
  · refine ⟨?_, fun x => Iff.rfl, rfl, rfl, rfl, rfl⟩
    exact ⟨h.check_key, h.cnext_key,
      fun x hx => h.fix_key x (pop_snd_subset p st.fix hx),
      fun x hx => h.fix_proc x (pop_snd_subset p st.fix hx),
      h.proc_closed, h.key_where, h.key_reach, h.src_key⟩
  · rename_i b heq
    obtain ⟨f1, f2, f3, f4, f5, f6, f7⟩ :=
      foldl_relaxFix_struct g (pop p st.fix).1 b
        (neighborsOut g (pop p st.fix).1) { st with fix := (pop p st.fix).2 }
    refine ⟨?_, f5, f1, f2, f3, f4⟩
    refine ⟨?_, ?_, ?_, ?_, ?_, ?_, ?_, (f5 s).mpr h.src_key⟩
    · intro x hx
      rw [f1] at hx
      exact (f5 x).mpr (h.check_key x hx)
    · intro x hx
      rw [f2] at hx
      exact (f5 x).mpr (h.cnext_key x hx)
    · intro x hx
      rcases f7 x hx with hx' | ⟨_, hk⟩
      · exact (f5 x).mpr (h.fix_key x (pop_snd_subset p st.fix hx'))
      · exact (f5 x).mpr hk
    · intro x hx
      rw [f3]
      rcases f7 x hx with hx' | ⟨hp, _⟩
      · exact h.fix_proc x (pop_snd_subset p st.fix hx')
      · exact hp
    · intro u' hu' v hA
      rw [f3] at hu'
      rw [f4] at hu'
      exact (f5 v).mpr (h.proc_closed u' hu' v hA)
    · intro x hx
      rcases h.key_where x ((f5 x).mp hx) with hp | hnp | hc | hcn
      · refine Or.inl ?_
        rw [f3]
        exact hp
      · refine Or.inr (Or.inl ?_)
        rw [f4]
        exact hnp
      · refine Or.inr (Or.inr (Or.inl ?_))
        rw [f1]
        exact hc
      · refine Or.inr (Or.inr (Or.inr ?_))
        rw [f2]
        exact hcn
    · intro x hx
      exact h.key_reach x ((f5 x).mp hx)

theorem fixLoop_wf (p : Popper) (g : Graph) (s : Nat) :
    ∀ (f : Nat) (st st' : St), WF g s st → fixLoop p g f st = some st' →
      WF g s st' ∧ st'.fix = [] ∧ st'.check = st.check ∧
      st'.check_next = st.check_next ∧ st'.new_processed = st.new_processed := by
  intro f
  induction f with
  | zero =>
      intro st st' h heq
      simp only [fixLoop] at heq
      split at heq
      · rename_i hfix
        injection heq with heq
        subst heq
        exact ⟨h, hfix, rfl, rfl, rfl⟩
      · exact absurd heq (by simp)
  | succ k ih =>
      intro st st' h heq
      simp only [fixLoop] at heq
      split at heq
      · rename_i hfix
        injection heq with heq
        subst heq
        exact ⟨h, hfix, rfl, rfl, rfl⟩
      · obtain ⟨w1, w2, w3, w4, w5, w6⟩ := fixStep_wf p g s st h
        obtain ⟨i1, i2, i3, i4, i5⟩ := ih (fixStep p g st) st' w1 heq
        exact ⟨i1, i2, i3.trans w3, i4.trans w4, i5.trans w6⟩

theorem initSt_key_eq (s v : Nat) (hv : HasKey (initSt s).distances v) : v = s := by
  obtain ⟨q, hq⟩ := (haskey_iff _ _).mp hv
  rw [show (initSt s).distances = [(s, 0)] from rfl, dlookup_cons] at hq
  by_cases hsv : s = v
  · exact hsv.symm
  · rw [if_neg hsv] at hq
    exact Option.noConfusion hq

theorem initSt_wf (g : Graph) (s : Nat) : WF g s (initSt s) := by
  have hsk : HasKey (initSt s).distances s :=
    (haskey_iff _ _).mpr ⟨0, by simp [initSt, dlookup_cons]⟩
  refine ⟨?_, ?_, ?_, ?_, ?_, ?_, ?_, hsk⟩
  · intro v hv
    rw [show (initSt s).check = [s] from rfl, List.mem_singleton] at hv
    subst hv
    exact hsk
  · intro v hv
    exact absurd hv (by simp [initSt])
  · intro v hv
    exact absurd hv (by simp [initSt])
  · intro v hv
    exact absurd hv (by simp [initSt])
  · intro u' hu' v hA
    rcases hu' with hp | hnp
    · exact absurd hp (by simp [initSt])
    · exact absurd hnp (by simp [initSt])
  · intro v hv
    have := initSt_key_eq s v hv
    subst this
    exact Or.inr (Or.inr (Or.inl (by simp [initSt])))
  · intro v hv
    have := initSt_key_eq s v hv
    subst this
    exact reach_self g v

theorem loop_wf (p : Popper) (g : Graph) (s : Nat) :
    ∀ (f : Nat) (st st' : St), WF g s st → st.check_next = [] →
      st.new_processed = [] → loop p g f st = some st' →
      WF g s st' ∧ st'.check = [] ∧ st'.check_next = [] ∧ st'.fix = [] ∧
      st'.new_processed = [] := by
  intro f
  induction f with
  | zero =>
      intro st st' h hcn hnp heq
      simp only [loop] at heq
      split at heq
      · rename_i hg
        injection heq with heq
        subst heq
        exact ⟨h, hg.2, hcn, hg.1, hnp⟩
      · exact absurd heq (by simp)
  | succ k ih =>
      intro st st' h hcn hnp heq
      simp only [loop] at heq
      split at heq
      · rename_i hg
        injection heq with heq
        subst heq
        exact ⟨h, hg.2, hcn, hg.1, hnp⟩
      · rcases hfx : fixLoop p g k (swapSt (visitNeighbors p g st)) with _ | stm
        · rw [hfx] at heq
          exact absurd heq (by simp)
        · rw [hfx] at heq
          obtain ⟨v1, _, v3, v4⟩ := visitNeighbors_wf p g s st h
          have hsw : WF g s (swapSt (visitNeighbors p g st)) := swapSt_wf g s _ v1
          obtain ⟨w1, w2, w3, w4, w5⟩ := fixLoop_wf p g s k _ stm hsw hfx
          refine ih stm st' w1 ?_ ?_ heq
          · rw [w4]
            exact v3
          · rw [w5]
            exact v4

/-- On a final-shaped state (all worklists empty), the set of stored nodes is
closed under following edge chains: the endpoint of any adjacency chain
starting at a stored node is stored. -/
theorem closed_key (g : Graph) (s : Nat) (st : St) (hWF : WF g s st)
    (hc : st.check = []) (hcn : st.check_next = []) (hnp : st.new_processed = []) :
    ∀ (l : List Nat) (x y : Nat), List.Chain' (Adj g) l → l.head? = some x →
      HasKey st.distances x → l.getLast? = some y → HasKey st.distances y := by
  intro l
  induction l with
  | nil =>
      intro x y _ hh _ _
      exact Option.noConfusion hh
  | cons a t ih =>
      intro x y hch hh hkx hl
      have ha : a = x := by simpa using hh
      subst ha
      cases t with
      | nil =>
          simp only [List.getLast?_singleton, Option.some.injEq] at hl
          rw [← hl]
          exact hkx
      | cons b r =>
          have hch' := List.chain'_cons.mp hch
          have hproc : a ∈ st.processed := by
            rcases hWF.key_where a hkx with hp | hnp' | hc' | hcn'
            · exact hp
            · rw [hnp] at hnp'
              exact absurd hnp' (List.not_mem_nil a)
            · rw [hc] at hc'
              exact absurd hc' (List.not_mem_nil a)
            · rw [hcn] at hcn'
              exact absurd hcn' (List.not_mem_nil a)
          have hkb : HasKey st.distances b :=
            hWF.proc_closed a (Or.inl hproc) b hch'.1
          rw [List.getLast?_cons_cons] at hl
          exact ih b y hch'.2 rfl hkb hl

/-- C10: whenever `shortest_path` returns, every node with an entry in the
distance table is in the settled (`processed`) set — its outgoing edges have
been relaxed at least once — and the frontier, next-frontier,
correction-queue and newly-settled sets are all empty. -/
theorem c10_final_state (p : Popper) (g : Graph) (s : Nat) (f : Nat) (st : St)
    (hrun : shortestPathState p g s f = some st) :
    (∀ v, HasKey st.distances v → v ∈ st.processed) ∧
    st.check = [] ∧ st.check_next = [] ∧ st.fix = [] ∧ st.new_processed = [] := by
  unfold shortestPathState at hrun
  obtain ⟨v1, _, v3, v4⟩ := visitNeighbors_wf p g s (initSt s) (initSt_wf g s)
  have hsw := swapSt_wf g s _ v1
  obtain ⟨w1, w2, w3, w4, w5⟩ := loop_wf p g s f _ st hsw v3 v4 hrun
  refine ⟨?_, w2, w3, w4, w5⟩
  intro v hv
  rcases w1.key_where v hv with hp | hnp | hc | hcn
  · exact hp
  · rw [w5] at hnp
    exact absurd hnp (List.not_mem_nil v)
  · rw [w2] at hc
    exact absurd hc (List.not_mem_nil v)
  · rw [w3] at hcn
    exact absurd hcn (List.not_mem_nil v)

theorem c10_final_state_witness :
    shortestPathState popHead G1 0 1 = some (⟨[], [], [(0, 0)], [], [], [0]⟩ : St) ∧
    0 ∈ (⟨[], [], [(0, 0)], [], [], [0]⟩ : St).processed ∧
    (⟨[], [], [(0, 0)], [], [], [0]⟩ : St).check = [] ∧
    (⟨[], [], [(0, 0)], [], [], [0]⟩ : St).check_next = [] ∧
    (⟨[], [], [(0, 0)], [], [], [0]⟩ : St).fix = [] ∧
    (⟨[], [], [(0, 0)], [], [], [0]⟩ : St).new_processed = [] := by
  have hrun : shortestPathState popHead G1 0 1
      = some (⟨[], [], [(0, 0)], [], [], [0]⟩ : St) := by
    with_unfolding_all rfl
  have h := c10_final_state popHead G1 0 1 (⟨[], [], [(0, 0)], [], [], [0]⟩ : St) hrun
  exact ⟨hrun, h.1 0 (by with_unfolding_all decide), h.2.1, h.2.2.1, h.2.2.2.1,
    h.2.2.2.2⟩

/-- C5 (amended): for every graph and source such that no negative cycle is
reachable from the source, whenever `shortest_path` returns, a node has an
entry in the returned mapping exactly when it is reachable from the source
(in particular the source has one), and the source's entry is `0`. -/
theorem c5_amended (p : Popper) (g : Graph) (s : Nat) (f : Nat) (st : St)
    (hNN : NoNegCycle g s) (hrun : shortestPathState p g s f = some st) :
    (∀ v, HasKey st.distances v ↔ Reach g s v) ∧
    dlookup s st.distances = some 0 := by
  have hgood : GoodDist g s st.distances :=
    shortestPathState_good p g s hNN f st hrun
  unfold shortestPathState at hrun
  obtain ⟨v1, _, v3, v4⟩ := visitNeighbors_wf p g s (initSt s) (initSt_wf g s)
  have hsw := swapSt_wf g s _ v1
  obtain ⟨w1, w2, w3, w4, w5⟩ := loop_wf p g s f _ st hsw v3 v4 hrun
  constructor
  · intro v
    constructor
    · exact w1.key_reach v
    · intro hr
      obtain ⟨l, hne, hch, hh, hl⟩ := hr
      exact closed_key g s st w1 w2 w3 w5 l s v hch hh w1.src_key hl
  · obtain ⟨q, hq⟩ := (haskey_iff _ _).mp w1.src_key
    have := good_src_zero hgood hq
    rw [this] at hq
    exact hq

theorem c5_amended_witness :
    NoNegCycle G1 0 ∧ dlookup 0 [(0, (0 : ℚ))] = some 0 ∧ Reach G1 0 0 := by
  have hNN : NoNegCycle G1 0 := by
    intro c u v hne hch hnd hr hl hh hadj
    simp [Adj, neighborsOut, G1] at hadj
  have h := c5_amended popHead G1 0 1 (⟨[], [], [(0, 0)], [], [], [0]⟩ : St) hNN
    (by with_unfolding_all rfl)
  exact ⟨hNN, h.2, (h.1 0).mp (by with_unfolding_all decide)⟩

/-! ## Termination: the finitely many values a stored distance can take -/

theorem sinsert_nodup (x : Nat) (l : List Nat) (h : l.Nodup) :
    (sinsert x l).Nodup := by
  unfold sinsert
  split
  · exact h
  · exact List.nodup_cons.mpr ⟨by assumption, h⟩

theorem haskey_mem_keys (d : List (Nat × ℚ)) (v : Nat) :
    HasKey d v ↔ v ∈ d.map Prod.fst := by
  induction d with
  | nil => simp [HasKey, dlookup]
  | cons e rest ih =>
      by_cases he : e.1 = v
      · simp only [HasKey, dlookup_cons, if_pos he, List.map_cons, List.mem_cons]
        simp [he]
      · simp only [HasKey, dlookup_cons, if_neg he, List.map_cons, List.mem_cons]
        rw [show (dlookup v rest).isSome = true ↔ HasKey rest v from Iff.rfl, ih]
        constructor
        · exact fun h => Or.inr h
        · rintro (h | h)
          · exact absurd h.symm he
          · exact h

theorem dupdate_length_of_haskey (v : Nat) (q : ℚ) (d : List (Nat × ℚ))
    (h : HasKey d v) : (dupdate v q d).length = d.length := by
  induction d with
  | nil => exact absurd h (by simp [HasKey, dlookup])
  | cons e rest ih =>
      by_cases he : e.1 = v
      · rw [show dupdate v q (e :: rest) = (v, q) :: rest by simp [dupdate, he]]
        rfl
      · rw [show dupdate v q (e :: rest) = e :: dupdate v q rest by simp [dupdate, he]]
        have h' : HasKey rest v := by
          unfold HasKey at h ⊢
          rw [dlookup_cons, if_neg he] at h
          exact h
        simp [ih h']

theorem dupdate_length_ge (v : Nat) (q : ℚ) (d : List (Nat × ℚ)) :
    d.length ≤ (dupdate v q d).length := by
  induction d with
  | nil => simp [dupdate]
  | cons e rest ih =>
      by_cases he : e.1 = v
      · rw [show dupdate v q (e :: rest) = (v, q) :: rest by simp [dupdate, he]]
        simp
      · rw [show dupdate v q (e :: rest) = e :: dupdate v q rest by simp [dupdate, he]]
        simp only [List.length_cons]
        omega

theorem mem_keys_dupdate (v : Nat) (q : ℚ) (d : List (Nat × ℚ)) (x : Nat) :
    x ∈ (dupdate v q d).map Prod.fst ↔ x = v ∨ x ∈ d.map Prod.fst := by
  rw [← haskey_mem_keys, ← haskey_mem_keys, haskey_dupdate]

theorem dupdate_keys_nodup (v : Nat) (q : ℚ) (d : List (Nat × ℚ))
    (h : (d.map Prod.fst).Nodup) : ((dupdate v q d).map Prod.fst).Nodup := by
  induction d with
  | nil => simp [dupdate]
  | cons e rest ih =>
      rw [List.map_cons, List.nodup_cons] at h
      by_cases he : e.1 = v
      · rw [show dupdate v q (e :: rest) = (v, q) :: rest by simp [dupdate, he]]
        rw [List.map_cons, List.nodup_cons]
        exact ⟨by rw [← he]; exact h.1, h.2⟩
      · rw [show dupdate v q (e :: rest) = e :: dupdate v q rest by simp [dupdate, he]]
        rw [List.map_cons, List.nodup_cons]
        refine ⟨?_, ih h.2⟩
        rw [mem_keys_dupdate]
        rintro (h' | h')
        · exact he h'
        · exact h.1 h'

theorem mem_verts_foldr (es : List (Nat × Nat × ℚ)) (y : Nat) :
    y ∈ es.foldr (fun e acc => e.1 :: e.2.1 :: acc) [] ↔
      ∃ e ∈ es, y = e.1 ∨ y = e.2.1 := by
  induction es with
  | nil => simp
  | cons e t ih =>
      simp only [List.foldr_cons, List.mem_cons, ih]
      aesop

theorem chain_mem_pred :
    ∀ (l : List Nat) (x h : Nat), x ∈ l → l.head? = some h →
      x = h ∨ ∃ pr ∈ steps l, pr.2 = x
  | [], x, h, hx, _ => absurd hx (List.not_mem_nil x)
  | [a], x, h, hx, hh => by
      simp only [List.mem_singleton] at hx
      simp only [List.head?_cons, Option.some.injEq] at hh
      exact Or.inl (hx.trans hh)
  | a :: b :: r, x, h, hx, hh => by
      simp only [List.head?_cons, Option.some.injEq] at hh
      rcases List.mem_cons.mp hx with rfl | hx'
      · exact Or.inl hh
      · rcases chain_mem_pred (b :: r) x b hx' rfl with rfl | ⟨pr, hpr, hpr2⟩
        · refine Or.inr ⟨(a, x), ?_, rfl⟩
          rw [show steps (a :: x :: r) = (a, x) :: steps (x :: r) from rfl]
          exact List.mem_cons_self _ _
        · refine Or.inr ⟨pr, ?_, hpr2⟩
          rw [show steps (a :: b :: r) = (a, b) :: steps (b :: r) from rfl]
          exact List.mem_cons_of_mem _ hpr

theorem spath_subset_verts {g : Graph} {s v : Nat} {l : List Nat}
    (hP : SPath g s v l) : ∀ x ∈ l, x ∈ verts g s := by
  intro x hx
  obtain ⟨hne, hch, hh, hl, hnd⟩ := hP
  rcases chain_mem_pred l x s hx hh with rfl | ⟨pr, hpr, hpr2⟩
  · exact List.mem_cons_self _ _
  · have hadj := steps_adj g l hch pr hpr
    obtain ⟨e₀, he₀, he₀1, he₀2, _⟩ := adj_edge hadj
    refine List.mem_cons_of_mem _ ((mem_verts_foldr g.edges x).mpr ⟨e₀, he₀, ?_⟩)
    rw [← hpr2, ← he₀2]
    exact Or.inr rfl

theorem nodup_sub_mem_cand (g : Graph) (s : Nat) (l : List Nat)
    (hnd : l.Nodup) (hsub : ∀ x ∈ l, x ∈ verts g s) : l ∈ cand g s := by
  have hL : ((verts g s).dedup).Nodup := List.nodup_dedup _
  have hsub' : ∀ x ∈ l, x ∈ (verts g s).dedup :=
    fun x hx => (List.mem_dedup).mpr (hsub x hx)
  have hfil : List.Sublist ((verts g s).dedup.filter (fun x => decide (x ∈ l)))
      ((verts g s).dedup) :=
    List.filter_sublist _
  have hfnd : ((verts g s).dedup.filter (fun x => decide (x ∈ l))).Nodup :=
    List.Nodup.filter _ hL
  have hperm : List.Perm l ((verts g s).dedup.filter (fun x => decide (x ∈ l))) := by
    refine List.perm_of_nodup_nodup_toFinset_eq hnd hfnd ?_
    ext a
    simp only [List.mem_toFinset, List.mem_filter, decide_eq_true_eq]
    constructor
    · exact fun ha => ⟨hsub' a ha, ha⟩
    · exact fun ha => ha.2
  unfold cand
  rw [List.mem_bind]
  exact ⟨(verts g s).dedup.filter (fun x => decide (x ∈ l)),
    List.mem_sublists.mpr hfil, List.mem_permutations.mpr hperm⟩

theorem lookup_val_mem_pvals {g : Graph} {s : Nat} {d : List (Nat × ℚ)}
    (hg : GoodDist g s d) {v : Nat} {q : ℚ} (h : dlookup v d = some q) :
    q ∈ pvals g s := by
  obtain ⟨l, hl, hw, _⟩ := hg v q h
  have hc : l ∈ cand g s :=
    nodup_sub_mem_cand g s l hl.2.2.2.2 (spath_subset_verts hl)
  unfold pvals
  rw [List.mem_toFinset]
  exact hw ▸ List.mem_map.mpr ⟨l, hc, rfl⟩

theorem rank_le_card (g : Graph) (s : Nat) (q : ℚ) :
    rank g s q ≤ (pvals g s).card :=
  Finset.card_filter_le _ _

theorem rank_lt_rank {g : Graph} {s : Nat} {q q' : ℚ} (h : q' < q)
    (hq' : q' ∈ pvals g s) : rank g s q' < rank g s q := by
  apply Finset.card_lt_card
  rw [Finset.ssubset_iff_of_subset]
  · refine ⟨q', Finset.mem_filter.mpr ⟨hq', by simpa using h⟩, ?_⟩
    rw [Finset.mem_filter]
    rintro ⟨-, hlt⟩
    simp at hlt
  · intro x hx
    rw [Finset.mem_filter] at hx ⊢
    refine ⟨hx.1, ?_⟩
    have := hx.2
    simp only [decide_eq_true_eq] at this ⊢
    exact lt_trans this h

theorem distPhi_cons (g : Graph) (s : Nat) (e : Nat × ℚ) (d : List (Nat × ℚ)) :
    distPhi g s (e :: d) = rank g s e.2 + distPhi g s d := by
  simp [distPhi]

theorem distPhi_dupdate_lt (g : Graph) (s : Nat) (d : List (Nat × ℚ)) (v : Nat)
    (q dv : ℚ) (h : dlookup v d = some dv) (hlt : q < dv) (hq : q ∈ pvals g s) :
    distPhi g s (dupdate v q d) < distPhi g s d := by
  induction d with
  | nil => exact absurd h (by simp [dlookup])
  | cons e rest ih =>
      rw [dlookup_cons] at h
      by_cases he : e.1 = v
      · rw [if_pos he] at h
        injection h with h
        have hlt' : q < e.2 := by rw [h]; exact hlt
        rw [show dupdate v q (e :: rest) = (v, q) :: rest by simp [dupdate, he]]
        rw [distPhi_cons, distPhi_cons]
        exact Nat.add_lt_add_right (rank_lt_rank hlt' hq) _
      · rw [if_neg he] at h
        rw [show dupdate v q (e :: rest) = e :: dupdate v q rest by simp [dupdate, he]]
        rw [distPhi_cons, distPhi_cons]
        exact Nat.add_lt_add_left (ih h) _

theorem relaxFix_cases (g : Graph) (s : Nat) (hNN : NoNegCycle g s)
    {st : St} {u v : Nat} {b : ℚ} (hg : GoodDist g s st.distances)
    (hB : BaseOK g s st.distances u b) (hAdj : Adj g u v) :
    relaxFix g u b st v = st ∨
    (distPhi g s (relaxFix g u b st v).distances < distPhi g s st.distances ∧
     (relaxFix g u b st v).distances.length = st.distances.length) := by
  unfold relaxFix
  split
  · exact Or.inl rfl
  · rename_i dv heq
    split
    · rename_i hlt
      have himp : ∀ dv', dlookup v st.distances = some dv' →
          b + edgeWeight g u v < dv' := by
        intro dv' hdv'
        rw [heq] at hdv'
        injection hdv' with hdv'
        rw [hdv'] at hlt
        exact hlt
      have hgood' := (good_relax g s hNN hg hB hAdj himp).1
      have hq : b + edgeWeight g u v ∈ pvals g s :=
        lookup_val_mem_pvals hgood' (by rw [dlookup_dupdate, if_pos rfl])
      refine Or.inr ⟨distPhi_dupdate_lt g s st.distances v _ dv heq hlt hq, ?_⟩
      exact dupdate_length_of_haskey v _ _ ((haskey_iff _ _).mpr ⟨dv, heq⟩)
    · exact Or.inl rfl

theorem foldl_relaxFix_cases (g : Graph) (s : Nat) (hNN : NoNegCycle g s)
    (u : Nat) (b : ℚ) :
    ∀ (L : List Nat) (st : St), (∀ v ∈ L, Adj g u v) →
      GoodDist g s st.distances → BaseOK g s st.distances u b →
      (L.foldl (relaxFix g u b) st = st ∨
       (distPhi g s (L.foldl (relaxFix g u b) st).distances
          < distPhi g s st.distances ∧
        (L.foldl (relaxFix g u b) st).distances.length = st.distances.length)) := by
  intro L
  induction L with
  | nil => exact fun st _ _ _ => Or.inl rfl
  | cons a t ih =>
      intro st hadj hg hB
      have hga := relaxFix_good g s hNN hg hB (hadj a (List.mem_cons_self a t))
      have hBa := baseok_mono hga.2 hB
      rcases relaxFix_cases g s hNN hg hB (hadj a (List.mem_cons_self a t)) with
        heq | ⟨hlt, hlen⟩
      · rw [List.foldl_cons, heq]
        exact ih st (fun v hv => hadj v (List.mem_cons_of_mem a hv)) hg hB
      · rcases ih (relaxFix g u b st a)
          (fun v hv => hadj v (List.mem_cons_of_mem a hv)) hga.1 hBa with
          heq' | ⟨hlt', hlen'⟩
        · refine Or.inr ⟨?_, ?_⟩
          · rw [List.foldl_cons, heq']
            exact hlt
          · rw [List.foldl_cons, heq']
            exact hlen
        · refine Or.inr ⟨?_, ?_⟩
          · rw [List.foldl_cons]
            exact lt_trans hlt' hlt
          · rw [List.foldl_cons]
            exact hlen'.trans hlen

theorem relaxFix_fix_nodup {g : Graph} {u : Nat} {b : ℚ} {st : St} {v : Nat}
    (h : st.fix.Nodup) : (relaxFix g u b st v).fix.Nodup := by
  unfold relaxFix
  split
  · exact h
  · split
    · by_cases hvp : v ∈ st.processed
      · simp only [if_pos hvp]
        exact sinsert_nodup v st.fix h
      · simp only [if_neg hvp]
        exact h
    · exact h

theorem foldl_relaxFix_fix_nodup {g : Graph} {u : Nat} {b : ℚ} :
    ∀ (L : List Nat) (st : St), st.fix.Nodup →
      (L.foldl (relaxFix g u b) st).fix.Nodup := by
  intro L
  induction L with
  | nil => exact fun st h => h
  | cons a t ih =>
      intro st h
      rw [List.foldl_cons]
      exact ih _ (relaxFix_fix_nodup h)

theorem relaxFix_keys_nodup {g : Graph} {u : Nat} {b : ℚ} {st : St} {v : Nat}
    (h : (st.distances.map Prod.fst).Nodup) :
    ((relaxFix g u b st v).distances.map Prod.fst).Nodup := by
  unfold relaxFix
  split
  · exact h
  · split
    · exact dupdate_keys_nodup v _ st.distances h
    · exact h

theorem foldl_relaxFix_keys_nodup {g : Graph} {u : Nat} {b : ℚ} :
    ∀ (L : List Nat) (st : St), (st.distances.map Prod.fst).Nodup →
      ((L.foldl (relaxFix g u b) st).distances.map Prod.fst).Nodup := by
  intro L
  induction L with
  | nil => exact fun st h => h
  | cons a t ih =>
      intro st h
      rw [List.foldl_cons]
      exact ih _ (relaxFix_keys_nodup h)

theorem fixStep_keys_nodup (p : Popper) {g : Graph} {st : St}
    (h : (st.distances.map Prod.fst).Nodup) :
    ((fixStep p g st).distances.map Prod.fst).Nodup := by
  unfold fixStep
  split
  · exact h
  · exact foldl_relaxFix_keys_nodup _ _ h

theorem fixStep_fix_nodup (p : Popper) {g : Graph} {st : St}
    (h : st.fix.Nodup) : (fixStep p g st).fix.Nodup := by
  have hrest : (pop p st.fix).2.Nodup :=
    List.Nodup.sublist (List.eraseIdx_sublist st.fix _) h
  unfold fixStep
  split
  · exact hrest
  · exact foldl_relaxFix_fix_nodup _ _ hrest

theorem fixStep_cases (p : Popper) (g : Graph) (s : Nat) (hNN : NoNegCycle g s)
    (st : St) (hWF : WF g s st) (hg : GoodDist g s st.distances)
    (hfx : st.fix ≠ []) (hfnd : st.fix.Nodup) :
    ((fixStep p g st).distances = st.distances ∧
     (fixStep p g st).fix.length < st.fix.length) ∨
    (distPhi g s (fixStep p g st).distances < distPhi g s st.distances ∧
     (fixStep p g st).distances.length = st.distances.length ∧
     (fixStep p g st).fix.length ≤ (fixStep p g st).distances.length) := by
  have hrest : (pop p st.fix).2.Nodup :=
    List.Nodup.sublist (List.eraseIdx_sublist st.fix _) hfnd
  unfold fixStep
  split
  · exact Or.inl ⟨rfl, pop_snd_length p st.fix hfx⟩
  · rename_i b heq
    obtain ⟨f1, f2, f3, f4, f5, f6, f7⟩ :=
      foldl_relaxFix_struct g (pop p st.fix).1 b
        (neighborsOut g (pop p st.fix).1) { st with fix := (pop p st.fix).2 }
    rcases foldl_relaxFix_cases g s hNN (pop p st.fix).1 b
        (neighborsOut g (pop p st.fix).1) { st with fix := (pop p st.fix).2 }
        (fun v hv => hv) hg (goodDist_baseok hg heq) with heq' | ⟨hlt, hlen⟩
    · refine Or.inl ⟨?_, ?_⟩
      · rw [heq']
      · rw [heq']
        exact pop_snd_length p st.fix hfx
    · refine Or.inr ⟨hlt, hlen, ?_⟩
      have hsub : (List.foldl (relaxFix g (pop p st.fix).1 b)
          { st with fix := (pop p st.fix).2 }
          (neighborsOut g (pop p st.fix).1)).fix ⊆
          (List.foldl (relaxFix g (pop p st.fix).1 b)
          { st with fix := (pop p st.fix).2 }
          (neighborsOut g (pop p st.fix).1)).distances.map Prod.fst := by
        intro x hx
        rw [← haskey_mem_keys, f5 x]
        rcases f7 x hx with hx' | ⟨_, hk⟩
        · exact hWF.fix_key x (pop_snd_subset p st.fix hx')
        · exact hk
      have hnd' := @foldl_relaxFix_fix_nodup g (pop p st.fix).1 b
        (neighborsOut g (pop p st.fix).1) { st with fix := (pop p st.fix).2 } hrest
      have := nodup_subset_length hnd' hsub
      simpa using this

theorem fixLoop_term (p : Popper) (g : Graph) (s : Nat) (hNN : NoNegCycle g s) :
    ∀ (n : Nat) (st : St), WF g s st → GoodDist g s st.distances →
      (st.distances.map Prod.fst).Nodup → st.fix.Nodup →
      distPhi g s st.distances * (st.distances.length + 1) + st.fix.length < n →
      ∃ st', fixLoop p g n st = some st' ∧
        (st'.distances.map Prod.fst).Nodup ∧
        st'.distances.length = st.distances.length := by
  intro n
  induction n with
  | zero =>
      intro st _ _ _ _ hmu
      omega
  | succ n ih =>
      intro st hWF hg hknd hfnd hmu
      by_cases hfx : st.fix = []
      · exact ⟨st, by simp [fixLoop, hfx], hknd, rfl⟩
      · have hWF' := (fixStep_wf p g s st hWF).1
        have hg' := (fixStep_good p g s hNN st hg).1
        have hknd' := @fixStep_keys_nodup p g st hknd
        have hfnd' := @fixStep_fix_nodup p g st hfnd
        rw [show fixLoop p g (n + 1) st = fixLoop p g n (fixStep p g st) by
          simp [fixLoop, hfx]]
        rcases fixStep_cases p g s hNN st hWF hg hfx hfnd with
          ⟨hdeq, hflt⟩ | ⟨hplt, hlen, hfb⟩
        · have hmu' : distPhi g s (fixStep p g st).distances *
              ((fixStep p g st).distances.length + 1) +
              (fixStep p g st).fix.length < n := by
            rw [hdeq]
            omega
          obtain ⟨st', h1, h2, h3⟩ := ih (fixStep p g st) hWF' hg' hknd' hfnd' hmu'
          exact ⟨st', h1, h2, by rw [h3, hdeq]⟩
        · have hmu' : distPhi g s (fixStep p g st).distances *
              ((fixStep p g st).distances.length + 1) +
              (fixStep p g st).fix.length < n := by
            rw [hlen] at hfb ⊢
            have h1 : distPhi g s (fixStep p g st).distances + 1 ≤
                distPhi g s st.distances := hplt
            have h2 : (distPhi g s (fixStep p g st).distances + 1) *
                (st.distances.length + 1) ≤
                distPhi g s st.distances * (st.distances.length + 1) :=
              Nat.mul_le_mul_right _ h1
            have h3 : (distPhi g s (fixStep p g st).distances + 1) *
                (st.distances.length + 1) =
                distPhi g s (fixStep p g st).distances *
                  (st.distances.length + 1) + (st.distances.length + 1) := by
              ring
            omega
          obtain ⟨st', h1, h2, h3⟩ := ih (fixStep p g st) hWF' hg' hknd' hfnd' hmu'
          exact ⟨st', h1, h2, by rw [h3, hlen]⟩

/-! ## Termination of the whole driver loop

The expansion phase only ever enqueues *fresh* nodes (nodes that receive
their first stored distance during the pass) into the next frontier, so a
round whose next frontier is nonempty strictly grows the distance table; the
table's size is bounded by one plus the number of edges (every key is the
source or the head of an edge), so the driver runs only finitely many
rounds, each of whose correction passes terminates by the potential
argument above. -/

theorem relaxVisit_cnext_fresh {g : Graph} {u : Nat} {b : ℚ} {st : St}
    {v x : Nat} (hx : x ∈ (relaxVisit g u b st v).check_next) :
    x ∈ st.check_next ∨ ¬ HasKey st.distances x := by
  unfold relaxVisit at hx
  split at hx
  · rename_i hnone
    rcases (mem_sinsert v x st.check_next).mp hx with rfl | hx'
    · exact Or.inr (by simp [HasKey, hnone])
    · exact Or.inl hx'
  · split at hx
    · exact Or.inl hx
    · exact Or.inl hx

theorem relaxVisit_key_mono {g : Graph} {u : Nat} {b : ℚ} {st : St} {v x : Nat}
    (h : HasKey st.distances x) : HasKey (relaxVisit g u b st v).distances x := by
  unfold relaxVisit
  split
  · exact (haskey_dupdate _ _ _ _).mpr (Or.inr h)
  · split
    · exact (haskey_dupdate _ _ _ _).mpr (Or.inr h)
    · exact h

theorem foldl_relaxVisit_key_mono {g : Graph} {u : Nat} {b : ℚ} {x : Nat} :
    ∀ (L : List Nat) (st : St), HasKey st.distances x →
      HasKey (L.foldl (relaxVisit g u b) st).distances x := by
  intro L
  induction L with
  | nil => exact fun st h => h
  | cons a t ih =>
      intro st h
      rw [List.foldl_cons]
      exact ih _ (relaxVisit_key_mono h)

theorem foldl_relaxVisit_cnext_fresh {g : Graph} {u : Nat} {b : ℚ} {x : Nat} :
    ∀ (L : List Nat) (st : St), x ∈ (L.foldl (relaxVisit g u b) st).check_next →
      x ∈ st.check_next ∨ ¬ HasKey st.distances x := by
  intro L
  induction L with
  | nil => exact fun st hx => Or.inl hx
  | cons a t ih =>
      intro st hx
      rw [List.foldl_cons] at hx
      rcases ih (relaxVisit g u b st a) hx with hx' | hk
      · exact relaxVisit_cnext_fresh hx'
      · exact Or.inr (fun hc => hk (relaxVisit_key_mono hc))

theorem visitStep_cnext_fresh {p : Popper} {g : Graph} {st : St} {x : Nat}
    (hx : x ∈ (visitStep p g st).check_next) :
    x ∈ st.check_next ∨ ¬ HasKey st.distances x := by
  unfold visitStep at hx
  split at hx
  · exact Or.inl hx
  · rcases foldl_relaxVisit_cnext_fresh _ _ hx with h | h
    · exact Or.inl h
    · exact Or.inr h

theorem visitStep_key_mono {p : Popper} {g : Graph} {st : St} {x : Nat}
    (h : HasKey st.distances x) : HasKey (visitStep p g st).distances x := by
  unfold visitStep
  split
  · exact h
  · exact foldl_relaxVisit_key_mono _ _ h

theorem visitLoop_key_mono (p : Popper) (g : Graph) :
    ∀ (f : Nat) (st : St) (x : Nat), HasKey st.distances x →
      HasKey (visitLoop p g f st).distances x := by
  intro f
  induction f with
  | zero => exact fun st x h => h
  | succ k ih =>
      intro st x h
      by_cases hc : st.check = []
      · rw [show visitLoop p g (k + 1) st = st from by simp [visitLoop, hc]]
        exact h
      · rw [show visitLoop p g (k + 1) st = visitLoop p g k (visitStep p g st)
          from by simp [visitLoop, hc]]
        exact ih _ x (visitStep_key_mono h)

theorem visitLoop_cnext_fresh (p : Popper) (g : Graph) :
    ∀ (f : Nat) (st : St) (x : Nat), x ∈ (visitLoop p g f st).check_next →
      x ∈ st.check_next ∨ ¬ HasKey st.distances x := by
  intro f
  induction f with
  | zero => exact fun st x hx => Or.inl hx
  | succ k ih =>
      intro st x hx
      by_cases hc : st.check = []
      · rw [show visitLoop p g (k + 1) st = st from by simp [visitLoop, hc]] at hx
        exact Or.inl hx
      · rw [show visitLoop p g (k + 1) st = visitLoop p g k (visitStep p g st)
          from by simp [visitLoop, hc]] at hx
        rcases ih (visitStep p g st) x hx with hx' | hk
        · exact visitStep_cnext_fresh hx'
        · exact Or.inr (fun hc' => hk (visitStep_key_mono hc'))

theorem visitNeighbors_cnext_fresh (p : Popper) (g : Graph) {st : St} {x : Nat}
    (hx : x ∈ (visitNeighbors p g st).check_next) :
    x ∈ st.check_next ∨ ¬ HasKey st.distances x :=
  visitLoop_cnext_fresh p g st.check.length st x hx

theorem relaxVisit_keys_nodup {g : Graph} {u : Nat} {b : ℚ} {st : St} {v : Nat}
    (h : (st.distances.map Prod.fst).Nodup) :
    ((relaxVisit g u b st v).distances.map Prod.fst).Nodup := by
  unfold relaxVisit
  split
  · exact dupdate_keys_nodup v _ st.distances h
  · split
    · exact dupdate_keys_nodup v _ st.distances h
    · exact h

theorem foldl_relaxVisit_keys_nodup {g : Graph} {u : Nat} {b : ℚ} :
    ∀ (L : List Nat) (st : St), (st.distances.map Prod.fst).Nodup →
      ((L.foldl (relaxVisit g u b) st).distances.map Prod.fst).Nodup := by
  intro L
  induction L with
  | nil => exact fun st h => h
  | cons a t ih =>
      intro st h
      rw [List.foldl_cons]
      exact ih _ (relaxVisit_keys_nodup h)

theorem visitStep_keys_nodup {p : Popper} {g : Graph} {st : St}
    (h : (st.distances.map Prod.fst).Nodup) :
    ((visitStep p g st).distances.map Prod.fst).Nodup := by
  unfold visitStep
  split
  · exact h
  · exact foldl_relaxVisit_keys_nodup _ _ h

theorem visitLoop_keys_nodup (p : Popper) (g : Graph) :
    ∀ (f : Nat) (st : St), (st.distances.map Prod.fst).Nodup →
      ((visitLoop p g f st).distances.map Prod.fst).Nodup := by
  intro f
  induction f with
  | zero => exact fun st h => h
  | succ k ih =>
      intro st h
      by_cases hc : st.check = []
      · rw [show visitLoop p g (k + 1) st = st from by simp [visitLoop, hc]]
        exact h
      · rw [show visitLoop p g (k + 1) st = visitLoop p g k (visitStep p g st)
          from by simp [visitLoop, hc]]
        exact ih _ (visitStep_keys_nodup h)

theorem visitNeighbors_keys_nodup (p : Popper) (g : Graph) {st : St}
    (h : (st.distances.map Prod.fst).Nodup) :
    ((visitNeighbors p g st).distances.map Prod.fst).Nodup :=
  visitLoop_keys_nodup p g st.check.length st h

theorem relaxVisit_fix_nodup {g : Graph} {u : Nat} {b : ℚ} {st : St} {v : Nat}
    (h : st.fix.Nodup) : (relaxVisit g u b st v).fix.Nodup := by
  unfold relaxVisit
  split
  · exact h
  · split
    · by_cases hvp : v ∈ st.processed
      · simp only [if_pos hvp]
        exact sinsert_nodup v st.fix h
      · simp only [if_neg hvp]
        exact h
    · exact h

theorem foldl_relaxVisit_fix_nodup {g : Graph} {u : Nat} {b : ℚ} :
    ∀ (L : List Nat) (st : St), st.fix.Nodup →
      (L.foldl (relaxVisit g u b) st).fix.Nodup := by
  intro L
  induction L with
  | nil => exact fun st h => h
  | cons a t ih =>
      intro st h
      rw [List.foldl_cons]
      exact ih _ (relaxVisit_fix_nodup h)

theorem visitStep_fix_nodup {p : Popper} {g : Graph} {st : St}
    (h : st.fix.Nodup) : (visitStep p g st).fix.Nodup := by
  unfold visitStep
  split
  · exact h
  · exact foldl_relaxVisit_fix_nodup _ _ h

theorem visitLoop_fix_nodup (p : Popper) (g : Graph) :
    ∀ (f : Nat) (st : St), st.fix.Nodup → (visitLoop p g f st).fix.Nodup := by
  intro f
  induction f with
  | zero => exact fun st h => h
  | succ k ih =>
      intro st h
      by_cases hc : st.check = []
      · rw [show visitLoop p g (k + 1) st = st from by simp [visitLoop, hc]]
        exact h
      · rw [show visitLoop p g (k + 1) st = visitLoop p g k (visitStep p g st)
          from by simp [visitLoop, hc]]
        exact ih _ (visitStep_fix_nodup h)

theorem visitNeighbors_fix_nodup (p : Popper) (g : Graph) {st : St}
    (h : st.fix.Nodup) : (visitNeighbors p g st).fix.Nodup :=
  visitLoop_fix_nodup p g st.check.length st h

theorem relaxVisit_fix_of_proc_empty {g : Graph} {u : Nat} {b : ℚ} {st : St}
    {v : Nat} (hp : st.processed = []) :
    (relaxVisit g u b st v).fix = st.fix ∧
    (relaxVisit g u b st v).processed = [] := by
  unfold relaxVisit
  split
  · exact ⟨rfl, hp⟩
  · split
    · refine ⟨?_, hp⟩
      show (if v ∈ st.processed then sinsert v st.fix else st.fix) = st.fix
      rw [hp]
      simp
    · exact ⟨rfl, hp⟩

theorem foldl_relaxVisit_fix_of_proc_empty {g : Graph} {u : Nat} {b : ℚ} :
    ∀ (L : List Nat) (st : St), st.processed = [] →
      (L.foldl (relaxVisit g u b) st).fix = st.fix ∧
      (L.foldl (relaxVisit g u b) st).processed = [] := by
  intro L
  induction L with
  | nil => exact fun st hp => ⟨rfl, hp⟩
  | cons a t ih =>
      intro st hp
      obtain ⟨h1, h2⟩ := @relaxVisit_fix_of_proc_empty g u b st a hp
      obtain ⟨h3, h4⟩ := ih (relaxVisit g u b st a) h2
      rw [List.foldl_cons]
      exact ⟨h3.trans h1, h4⟩

theorem visitStep_fix_of_proc_empty {p : Popper} {g : Graph} {st : St}
    (hp : st.processed = []) :
    (visitStep p g st).fix = st.fix ∧ (visitStep p g st).processed = [] := by
  unfold visitStep
  split
  · exact ⟨rfl, hp⟩
  · exact foldl_relaxVisit_fix_of_proc_empty _ _ hp

theorem visitLoop_fix_of_proc_empty (p : Popper) (g : Graph) :
    ∀ (f : Nat) (st : St), st.processed = [] →
      (visitLoop p g f st).fix = st.fix ∧
      (visitLoop p g f st).processed = [] := by
  intro f
  induction f with
  | zero => exact fun st hp => ⟨rfl, hp⟩
  | succ k ih =>
      intro st hp
      by_cases hc : st.check = []
      · rw [show visitLoop p g (k + 1) st = st from by simp [visitLoop, hc]]
        exact ⟨rfl, hp⟩
      · rw [show visitLoop p g (k + 1) st = visitLoop p g k (visitStep p g st)
          from by simp [visitLoop, hc]]
        obtain ⟨h1, h2⟩ := @visitStep_fix_of_proc_empty p g st hp
        obtain ⟨h3, h4⟩ := ih (visitStep p g st) h2
        exact ⟨h3.trans h1, h4⟩

theorem visitNeighbors_fix_empty (p : Popper) (g : Graph) {st : St}
    (hp : st.processed = []) (hf : st.fix = []) :
    (visitNeighbors p g st).fix = [] := by
  have h := (visitLoop_fix_of_proc_empty p g st.check.length st hp).1
  rw [show (visitNeighbors p g st).fix =
    (visitLoop p g st.check.length st).fix from rfl, h, hf]

theorem reach_head {g : Graph} {s v : Nat} (h : Reach g s v) :
    v = s ∨ v ∈ g.edges.map (fun e => e.2.1) := by
  obtain ⟨l, hne, hch, hh, hl⟩ := h
  have hv : v ∈ l := List.mem_of_mem_getLast? hl
  rcases chain_mem_pred l v s hv hh with rfl | ⟨pr, hpr, hpr2⟩
  · exact Or.inl rfl
  · have hadj := steps_adj g l hch pr hpr
    rw [hpr2] at hadj
    obtain ⟨e, he, _, he2, _⟩ := adj_edge hadj
    exact Or.inr (List.mem_map.mpr ⟨e, he, he2⟩)

theorem keys_bound {g : Graph} {s : Nat} {st : St} (hWF : WF g s st)
    (hknd : (st.distances.map Prod.fst).Nodup) :
    st.distances.length ≤ 1 + g.edges.length := by
  have hsub : st.distances.map Prod.fst ⊆ s :: g.edges.map (fun e => e.2.1) := by
    intro y hy
    rcases reach_head (hWF.key_reach y ((haskey_mem_keys _ _).mpr hy)) with
      rfl | hm
    · exact List.mem_cons_self _ _
    · exact List.mem_cons_of_mem _ hm
  have h := nodup_subset_length hknd hsub
  simp only [List.length_map, List.length_cons] at h
  omega

theorem distPhi_le (g : Graph) (s : Nat) :
    ∀ d : List (Nat × ℚ), distPhi g s d ≤ d.length * (pvals g s).card := by
  intro d
  induction d with
  | nil => simp [distPhi]
  | cons e rest ih =>
      rw [distPhi_cons]
      have h1 := rank_le_card g s e.2
      have h2 : (e :: rest).length * (pvals g s).card =
          rest.length * (pvals g s).card + (pvals g s).card := by
        rw [List.length_cons]
        ring
      omega

theorem mu_lt_termK {g : Graph} {s : Nat} {st : St} (hWF : WF g s st)
    (hknd : (st.distances.map Prod.fst).Nodup) (hfnd : st.fix.Nodup) :
    distPhi g s st.distances * (st.distances.length + 1) + st.fix.length <
      termK g s := by
  have hlen := keys_bound hWF hknd
  have hfix : st.fix.length ≤ st.distances.length := by
    have hsub : st.fix ⊆ st.distances.map Prod.fst := fun x hx =>
      (haskey_mem_keys _ _).mp (hWF.fix_key x hx)
    have h := nodup_subset_length hfnd hsub
    simpa using h
  have hphi := distPhi_le g s st.distances
  have h1 : distPhi g s st.distances * (st.distances.length + 1) ≤
      st.distances.length * (pvals g s).card * (st.distances.length + 1) :=
    Nat.mul_le_mul_right _ hphi
  have h2 : st.distances.length * (pvals g s).card *
      (st.distances.length + 1) ≤
      (1 + g.edges.length) * (pvals g s).card * (2 + g.edges.length) :=
    Nat.mul_le_mul (Nat.mul_le_mul_right _ hlen) (by omega)
  unfold termK
  omega

theorem visit_key_growth (p : Popper) (g : Graph) (s : Nat) (st : St)
    (hWF : WF g s st) (hcn : st.check_next = [])
    (hknd : (st.distances.map Prod.fst).Nodup) (x : Nat)
    (hx : x ∈ (visitNeighbors p g st).check_next) :
    st.distances.length < (visitNeighbors p g st).distances.length := by
  have hfresh : ¬ HasKey st.distances x := by
    rcases visitNeighbors_cnext_fresh p g hx with hx' | h
    · rw [hcn] at hx'
      exact absurd hx' (List.not_mem_nil x)
    · exact h
  have hkey : HasKey (visitNeighbors p g st).distances x :=
    (visitNeighbors_wf p g s st hWF).1.cnext_key x hx
  have hsub : x :: st.distances.map Prod.fst ⊆
      (visitNeighbors p g st).distances.map Prod.fst := by
    intro y hy
    rcases List.mem_cons.mp hy with rfl | hy'
    · exact (haskey_mem_keys _ _).mp hkey
    · exact (haskey_mem_keys _ _).mp
        ((visitNeighbors_wf p g s st hWF).2.1 y ((haskey_mem_keys _ _).mpr hy'))
  have hnd : (x :: st.distances.map Prod.fst).Nodup := by
    rw [List.nodup_cons]
    exact ⟨fun hc => hfresh ((haskey_mem_keys _ _).mpr hc), hknd⟩
  have h := nodup_subset_length hnd hsub
  simp only [List.length_cons, List.length_map] at h
  omega

theorem loop_term (p : Popper) (g : Graph) (s : Nat) (hNN : NoNegCycle g s) :
    ∀ (n : Nat) (st : St) (f : Nat), WF g s st → GoodDist g s st.distances →
      (st.distances.map Prod.fst).Nodup → st.fix = [] → st.check_next = [] →
      2 + g.edges.length ≤ st.distances.length + n →
      n + termK g s ≤ f →
      ∃ st', loop p g f st = some st' := by
  intro n
  induction n with
  | zero =>
      intro st f hWF _ hknd _ _ hgrow _
      have h := keys_bound hWF hknd
      omega
  | succ n ih =>
      intro st f hWF hg hknd hfx hcn hgrow hfuel
      obtain ⟨f', rfl⟩ : ∃ f', f = f' + 1 := ⟨f - 1, by omega⟩
      by_cases hdone : st.fix = [] ∧ st.check = []
      · exact ⟨st, loop_of_done p g (f' + 1) st hdone.1 hdone.2⟩
      · have hstep : loop p g (f' + 1) st =
            match fixLoop p g f' (swapSt (visitNeighbors p g st)) with
            | none => none
            | some st' => loop p g f' st' := by
          simp only [loop]
          rw [if_neg hdone]
        have hvWF := visitNeighbors_wf p g s st hWF
        have hWF₁ : WF g s (swapSt (visitNeighbors p g st)) :=
          swapSt_wf g s _ hvWF.1
        have hg₁ : GoodDist g s (swapSt (visitNeighbors p g st)).distances :=
          (visitNeighbors_good p g s hNN st hg).1
        have hknd₁ : ((swapSt (visitNeighbors p g st)).distances.map
            Prod.fst).Nodup := visitNeighbors_keys_nodup p g hknd
        have hfnd₁ : (swapSt (visitNeighbors p g st)).fix.Nodup :=
          visitNeighbors_fix_nodup p g (by rw [hfx]; exact List.nodup_nil)
        have hmu := mu_lt_termK hWF₁ hknd₁ hfnd₁
        obtain ⟨st₂, hfl, hknd₂, hlen₂⟩ := fixLoop_term p g s hNN f'
          (swapSt (visitNeighbors p g st)) hWF₁ hg₁ hknd₁ hfnd₁
          (lt_of_lt_of_le hmu (by omega))
        obtain ⟨hWF₂, hfx₂, hchk₂, hcn₂, _⟩ :=
          fixLoop_wf p g s f' (swapSt (visitNeighbors p g st)) st₂ hWF₁ hfl
        have hg₂ := (fixLoop_good p g s hNN f' (swapSt (visitNeighbors p g st))
          st₂ hg₁ hfl).1
        have hcn₂' : st₂.check_next = [] := by
          rw [hcn₂]
          exact hvWF.2.2.1
        rw [hstep, hfl]
        by_cases hc₂ : st₂.check = []
        · exact ⟨st₂, loop_of_done p g f' st₂ hfx₂ hc₂⟩
        · obtain ⟨x, hx⟩ := List.exists_mem_of_ne_nil st₂.check hc₂
          rw [hchk₂] at hx
          have hgrow' := visit_key_growth p g s st hWF hcn hknd x hx
          have hlen : st.distances.length < st₂.distances.length := by
            rw [hlen₂]
            exact hgrow'
          exact ih st₂ f' hWF₂ hg₂ hknd₂ hfx₂ hcn₂' (by omega) (by omega)

/-- C7: for every pop-order oracle, graph and source with no negative cycle
reachable from the source, `shortest_path` terminates: some finite step
budget makes the run return a distance mapping (each correction strictly
decreases a stored distance, each continuing round strictly grows the
distance table, and the driver exits once the frontier and the correction
queue are both empty). -/
theorem c7_terminates (p : Popper) (g : Graph) (s : Nat)
    (hNN : NoNegCycle g s) :
    ∃ (f : Nat) (d : List (Nat × ℚ)), shortest_path p g s f = some d := by
  have hWF₀ : WF g s (swapSt (visitNeighbors p g (initSt s))) :=
    swapSt_wf g s _ (visitNeighbors_wf p g s (initSt s) (initSt_wf g s)).1
  have hg₀ : GoodDist g s (swapSt (visitNeighbors p g (initSt s))).distances :=
    (visitNeighbors_good p g s hNN (initSt s) (initSt_good g s)).1
  have hknd₀ : ((swapSt (visitNeighbors p g (initSt s))).distances.map
      Prod.fst).Nodup := visitNeighbors_keys_nodup p g (by simp [initSt])
  have hfx₀ : (swapSt (visitNeighbors p g (initSt s))).fix = [] :=
    visitNeighbors_fix_empty p g rfl rfl
  have hcn₀ : (swapSt (visitNeighbors p g (initSt s))).check_next = [] :=
    (visitNeighbors_wf p g s (initSt s) (initSt_wf g s)).2.2.1
  obtain ⟨st', h⟩ := loop_term p g s hNN (2 + g.edges.length)
    (swapSt (visitNeighbors p g (initSt s))) (2 + g.edges.length + termK g s)
    hWF₀ hg₀ hknd₀ hfx₀ hcn₀ (by omega) (le_refl _)
  refine ⟨2 + g.edges.length + termK g s, st'.distances, ?_⟩
  unfold shortest_path shortestPathState
  rw [h]
  rfl

theorem c7_terminates_witness :
    ∃ (f : Nat) (d : List (Nat × ℚ)), shortest_path popHead G1 0 f = some d :=
  c7_terminates popHead G1 0 (fun c u v _ _ _ _ _ _ hadj =>
    absurd hadj (by simp [Adj, neighborsOut, G1]))

end BFS
